import Mathlib

/-!
# passgen-termux: a verification development of `main.go`

Shallow embedding of the password-generation core of `main.go`
(`buildCharset`, `mustIncludes`, `generatePassword`, `pickRune`,
`shuffleRunes`, `cryptoRandInt`, `uniqueRunes`, `removeRunes`).

Modelling conventions.

* A Go `string` that holds valid UTF-8 is the list of its runes, `List Char`;
  `for _, r := range s`, `[]rune(s)` and `string(runes)` are then the identity
  on that list.  `len(s)` is the number of BYTES of the UTF-8 encoding
  (`byteLen`), which differs from the number of runes for non-ASCII text.
* Go `int` values that can be negative (`length`, the argument of
  `cryptoRandInt`) are `Int`; indices and lengths are `Nat`.
* `crypto/rand` is an oracle `Source`: the answer given to the `t`-th call of
  `cryptoRandInt` when it asks `rand.Int` for a value below `n` is `src t n`,
  either an error code or a value of `Fin n` (the contract of `rand.Int`:
  a value in `[0, n)`).
* The state threaded through the code is a `Trace`: the list of the calls of
  `cryptoRandInt` made so far, each with its argument and what it returned.
* A Go run-time panic (index out of range) is the result `none`.
* A Go result pair `(T, error)` is `T × Option Err`.
-/

namespace Passgen

/-! ## Character classes (`main.go`, lines 14-20) -/

/-- Lowercase letters, `lower`. -/
def lower : List Char := "abcdefghijklmnopqrstuvwxyz".toList

/-- Uppercase letters, `upper`. -/
def upper : List Char := "ABCDEFGHIJKLMNOPQRSTUVWXYZ".toList

/-- Decimal digits, `digits`. -/
def digits : List Char := "0123456789".toList

/-- Symbols, `symbols`. -/
def symbols : List Char := "!@#$%^&*()-_=+[]\x7b\x7d;:,.?/|~<>".toList

/-- Ambiguous characters, `ambiguous`. -/
def ambiguous : List Char := "O0oIl1|`'\";:,. ".toList

/-- Configuration record `opts` (`main.go`, lines 22-32). -/
structure opts where
  length : Int
  useLower : Bool
  useUpper : Bool
  useDigits : Bool
  useSymbols : Bool
  count : Int
  exclude : List Char
  noAmbiguous : Bool
  copyToClip : Bool
deriving DecidableEq

/-! ## Strings -/

/-- Number of bytes of the UTF-8 encoding of one rune (Go `utf8.RuneLen`). -/
def runeLen (c : Char) : Nat :=
  if c.toNat < 0x80 then 1
  else if c.toNat < 0x800 then 2
  else if c.toNat < 0x10000 then 3
  else 4

/-- Go `len(s)` for a string: the number of bytes. -/
def byteLen : List Char → Nat
  | [] => 0
  | c :: s => runeLen c + byteLen s

/-- Every rune of the string is ASCII (one byte). -/
def isAscii (s : List Char) : Prop := ∀ c ∈ s, c.toNat < 128

instance (s : List Char) : Decidable (isAscii s) := by
  unfold isAscii; infer_instance

/-! ## Errors, entropy source, trace -/

/-- Error values returned by the code: `errors.New("charset vazio")`,
`errors.New("n inválido")`, and an error of `rand.Int` with its code. -/
inductive Err where
  | charsetVazio
  | nInvalido
  | entropy (code : Nat)
deriving DecidableEq

/-- The entropy source: the answer of `rand.Int(rand.Reader, n)` at the
`t`-th call of `cryptoRandInt`. -/
abbrev Source := Nat → (n : Nat) → Except Nat (Fin n)

/-- One call of `cryptoRandInt`: its argument and its two results. -/
structure Call where
  n : Int
  val : Nat
  err : Option Err
deriving DecidableEq

/-- The calls of `cryptoRandInt` made so far, oldest first. -/
abbrev Trace := List Call

/-! ## `uniqueRunes` and `removeRunes` (`main.go`, lines 207-231) -/

/-- Loop of `uniqueRunes`: `seen` is the map of runes already met, `out` the
output slice. -/
def uniqueRunesLoop : List Char → List Char → List Char → List Char
  | [], _, out => out
  | r :: s, seen, out =>
    if r ∈ seen then uniqueRunesLoop s seen out
    else uniqueRunesLoop s (r :: seen) (out ++ [r])

/-- Go `uniqueRunes(s)`. -/
def uniqueRunes (s : List Char) : List Char := uniqueRunesLoop s [] []

/-- Second loop of `removeRunes`: `rm` is the map built from `remove`. -/
def removeRunesLoop (rm : List Char) : List Char → List Char → List Char
  | [], out => out
  | r :: s, out =>
    if r ∈ rm then removeRunesLoop rm s out
    else removeRunesLoop rm s (out ++ [r])

/-- Go `removeRunes(s, remove)`. -/
def removeRunes (s remove : List Char) : List Char := removeRunesLoop remove s []

/-! ## `buildCharset` and `mustIncludes` (`main.go`, lines 80-139) -/

/-- Go `buildCharset(o)`. -/
def buildCharset (o : opts) : List Char :=
  let sb : List Char := []
  let sb := if o.useLower then sb ++ lower else sb
  let sb := if o.useUpper then sb ++ upper else sb
  let sb := if o.useDigits then sb ++ digits else sb
  let sb := if o.useSymbols then sb ++ symbols else sb
  let cs := uniqueRunes sb
  let cs := if o.noAmbiguous then removeRunes cs ambiguous else cs
  let cs := if o.exclude ≠ [] then removeRunes cs o.exclude else cs
  cs

/-- Last loop of `mustIncludes`: keep the non-empty sets, deduplicated. -/
def dropEmpty : List (List Char) → List (List Char) → List (List Char)
  | [], out => out
  | s :: sets, out =>
    if s ≠ [] then dropEmpty sets (out ++ [uniqueRunes s]) else dropEmpty sets out

/-- Go `mustIncludes(o)`. -/
def mustIncludes (o : opts) : List (List Char) :=
  let sets : List (List Char) := []
  let sets := if o.useLower then sets ++ [lower] else sets
  let sets := if o.useUpper then sets ++ [upper] else sets
  let sets := if o.useDigits then sets ++ [digits] else sets
  let sets := if o.useSymbols then sets ++ [symbols] else sets
  let sets := if o.noAmbiguous then sets.map (fun s => removeRunes s ambiguous) else sets
  let sets := if o.exclude ≠ [] then sets.map (fun s => removeRunes s o.exclude) else sets
  dropEmpty sets []

/-! ## `cryptoRandInt`, `pickRune`, `shuffleRunes` (`main.go`, lines 176-205) -/

/-- Go `cryptoRandInt(n)`. -/
def cryptoRandInt (src : Source) (n : Int) (tr : Trace) : (Nat × Option Err) × Trace :=
  if n ≤ 0 then
    ((0, some Err.nInvalido), tr ++ [⟨n, 0, some Err.nInvalido⟩])
  else
    match src tr.length n.toNat with
    | Except.error c => ((0, some (Err.entropy c)), tr ++ [⟨n, 0, some (Err.entropy c)⟩])
    | Except.ok v => ((v.val, none), tr ++ [⟨n, v.val, none⟩])

/-- Go `pickRune(from)`; `none` is the panic of `[]rune(from)[idx]` when the
index is out of range. -/
def pickRune (src : Source) (frm : List Char) (tr : Trace) :
    Option ((Char × Option Err) × Trace) :=
  match cryptoRandInt src (byteLen frm) tr with
  | ((_, some e), tr1) => some ((Char.ofNat 0, some e), tr1)
  | ((idx, none), tr1) =>
    match frm[idx]? with
    | some r => some ((r, none), tr1)
    | none => none

/-- The assignment `runes[i], runes[j] = runes[j], runes[i]`; `none` is the
panic of an index out of range. -/
def swapRunes (runes : List Char) (i j : Nat) : Option (List Char) :=
  match runes[j]?, runes[i]? with
  | some a, some b => some ((runes.set i a).set j b)
  | _, _ => none

/-- Loop of `shuffleRunes`, entered with loop variable `i`; the slice is
returned with the error because the code changes it in place. -/
def shuffleLoop (src : Source) : Nat → List Char → Trace →
    Option ((List Char × Option Err) × Trace)
  | 0, runes, tr => some ((runes, none), tr)
  | i + 1, runes, tr =>
    match cryptoRandInt src (((i + 1 : Nat) : Int) + 1) tr with
    | ((_, some e), tr1) => some ((runes, some e), tr1)
    | ((j, none), tr1) =>
      match swapRunes runes (i + 1) j with
      | some runes1 => shuffleLoop src i runes1 tr1
      | none => none

/-- Go `shuffleRunes(runes)`: the loop starts at `len(runes) - 1` and runs
while `i > 0` (for an empty slice it starts at `-1` and does not run). -/
def shuffleRunes (src : Source) (runes : List Char) (tr : Trace) :
    Option ((List Char × Option Err) × Trace) :=
  shuffleLoop src (runes.length - 1) runes tr

/-! ## `generatePassword` (`main.go`, lines 141-174) -/

/-- First loop of `generatePassword`: one rune of each mandatory set.  A
failed pick makes the function return `("", err)`. -/
def mustLoop (src : Source) : List (List Char) → List Char → Trace →
    Option ((List Char × Option Err) × Trace)
  | [], pw, tr => some ((pw, none), tr)
  | set :: rest, pw, tr =>
    match pickRune src set tr with
    | none => none
    | some ((_, some e), tr1) => some (([], some e), tr1)
    | some ((r, none), tr1) => mustLoop src rest (pw ++ [r]) tr1

/-- Second loop of `generatePassword`, `for len(pw) < length`, unrolled at
most `fuel` times. -/
def fillLoop (src : Source) (charset : List Char) (length : Int) :
    Nat → List Char → Trace → Option ((List Char × Option Err) × Trace)
  | 0, pw, tr => some ((pw, none), tr)
  | fuel + 1, pw, tr =>
    if (pw.length : Int) < length then
      match pickRune src charset tr with
      | none => none
      | some ((_, some e), tr1) => some (([], some e), tr1)
      | some ((r, none), tr1) => fillLoop src charset length fuel (pw ++ [r]) tr1
    else some ((pw, none), tr)

/-- Go `generatePassword(length, charset, must)`.  The fill loop appends one
rune per turn, so `length - len(pw)` turns are all it can take.  The capacity
given to `make([]rune, 0, length)` is never negative, because `length` has been
raised to `len(must)` before; the limit of the allocator is not modelled. -/
def generatePassword (src : Source) (length : Int) (charset : List Char)
    (must : List (List Char)) (tr : Trace) : Option ((List Char × Option Err) × Trace) :=
  if byteLen charset = 0 then some (([], some Err.charsetVazio), tr)
  else
    let length := if length < (must.length : Int) then (must.length : Int) else length
    match mustLoop src must [] tr with
    | none => none
    | some ((_, some e), tr1) => some (([], some e), tr1)
    | some ((pw, none), tr1) =>
      match fillLoop src charset length (length - (pw.length : Int)).toNat pw tr1 with
      | none => none
      | some ((_, some e), tr2) => some (([], some e), tr2)
      | some ((pw, none), tr2) =>
        match shuffleRunes src pw tr2 with
        | none => none
        | some ((_, some e), tr3) => some (([], some e), tr3)
        | some ((pw, none), tr3) => some ((pw, none), tr3)

/-! ## Sources used to evaluate the definitions -/

/-- A source that never fails: the `t`-th draw below `n` is `t % n`. -/
def modSource : Source := fun t n =>
  if h : 0 < n then Except.ok ⟨t % n, Nat.mod_lt t h⟩ else Except.error 0

/-- A source that fails with code `c` from its `k`-th call on. -/
def failFrom (k c : Nat) : Source := fun t n =>
  if h : 0 < n ∧ t < k then Except.ok ⟨t % n, Nat.mod_lt t h.1⟩ else Except.error c

/-! ## Auxiliary definitions for the statements -/

/-- The concatenation of the enabled classes, as built in `buildCharset`. -/
def enabledConcat (o : opts) : List Char :=
  (if o.useLower then lower else []) ++ (if o.useUpper then upper else []) ++
    (if o.useDigits then digits else []) ++ (if o.useSymbols then symbols else [])

/-- The enabled classes, as collected at the start of `mustIncludes`. -/
def enabledSets (o : opts) : List (List Char) :=
  (if o.useLower then [lower] else []) ++ (if o.useUpper then [upper] else []) ++
    (if o.useDigits then [digits] else []) ++ (if o.useSymbols then [symbols] else [])

/-- What `cryptoRandInt` returns, as a record, when it is the `t`-th call and
its argument is `n`. -/
def callOf (src : Source) (t : Nat) (n : Int) : Call :=
  if n ≤ 0 then ⟨n, 0, some Err.nInvalido⟩
  else
    match src t n.toNat with
    | Except.error c => ⟨n, 0, some (Err.entropy c)⟩
    | Except.ok v => ⟨n, v.val, none⟩

/-- Every record of the trace is the answer of the sampler at its position. -/
def Faithful (src : Source) (tr : Trace) : Prop :=
  ∀ t (h : t < tr.length), tr[t] = callOf src t (tr[t]).n

/-- The source answers every request with a positive bound. -/
def Working (src : Source) : Prop := ∀ t n, 0 < n → ∃ v, src t n = Except.ok v

/-- The trace `tr1` extends `tr`, a failed call among the new ones is the
error `err` returned, and the new records are the answers of the sampler. -/
def Ext (src : Source) (tr tr1 : Trace) (err : Option Err) : Prop :=
  ∃ new, tr1 = tr ++ new ∧ (∀ c ∈ new, ∀ e, c.err = some e → err = some e) ∧
    (Faithful src tr → Faithful src tr1)

/-- A configuration used to evaluate the definitions: length 4, lowercase and
digits, exclusion string `0Ol1`, ambiguous filter off. -/
def sampleOpts : opts := ⟨4, true, false, true, false, 1, "0Ol1".toList, false, false⟩

/-- The calls made by `generatePassword modSource 2 lower [lower, digits, upper]`. -/
def sampleTrace : Trace :=
  [⟨26, 0, none⟩, ⟨10, 1, none⟩, ⟨26, 2, none⟩, ⟨3, 0, none⟩, ⟨2, 0, none⟩]

/-- The calls made by `generatePassword` for `sampleOpts` and `modSource`. -/
def sampleOptsTrace : Trace :=
  [⟨25, 0, none⟩, ⟨8, 1, none⟩, ⟨33, 2, none⟩, ⟨33, 3, none⟩, ⟨4, 0, none⟩, ⟨3, 2, none⟩,
    ⟨2, 0, none⟩]

/-- A configuration used to evaluate the definitions: the defaults of the
driver (length 16, lowercase, uppercase and digits, ambiguous filter on). -/
def defaultOpts : opts := ⟨16, true, true, true, false, 1, [], true, false⟩

/-- A configuration with the four classes disabled. -/
def noClassOpts : opts := ⟨8, false, false, false, false, 1, "ab".toList, true, false⟩

/-- The calls made by `generatePassword (failFrom 4 7) 3 lower [lower]`: the
fifth call, a step of the shuffle, fails. -/
def failingTrace : Trace :=
  [⟨26, 0, none⟩, ⟨26, 1, none⟩, ⟨26, 2, none⟩, ⟨3, 0, none⟩, ⟨2, 0, some (Err.entropy 7)⟩]

/-- The source that answers the `t`-th call with the `t`-th entry of the draw
vector `js`, and fails when that entry is not below the bound or is missing. -/
def drawSource (js : List Nat) : Source := fun t n =>
  match js[t]? with
  | some j => if h : j < n then Except.ok ⟨j, h⟩ else Except.error 0
  | none => Except.error 0

/-- The draw vectors `(j_i, ..., j_1)` with `0 ≤ j_k ≤ k` for each `k`. -/
def validDraws : Nat → List Nat → Bool
  | 0, js => js.isEmpty
  | _ + 1, [] => false
  | i + 1, j :: js => decide (j ≤ i + 1) && validDraws i js

/-- The calls of `cryptoRandInt` of a shuffle entered at index `i` whose draws
are `js`: bound `k + 1` at index `k`, for `k` from `i` down to 1. -/
def shuffleCalls : Nat → List Nat → Trace
  | i + 1, j :: js => ⟨((i + 1 : Nat) : Int) + 1, j, none⟩ :: shuffleCalls i js
  | _, _ => []

/-- Exchange of the elements at positions `i` and `j` of a list. -/
def swapAt (l : List Char) (i j : Nat) : List Char :=
  match l[i]?, l[j]? with
  | some a, some b => (l.set i b).set j a
  | _, _ => l

/-- Reference Fisher-Yates shuffle, after the specification: from index `i`
down to index 1, exchange the current element with the element at the index
drawn for that step. -/
def fisherYates : Nat → List Nat → List Char → List Char
  | i + 1, j :: js, l => fisherYates i js (swapAt l (i + 1) j)
  | _, _, l => l

/-- Reference filter, after the specification: the characters of the ambiguous
set are removed when the flag is set and the characters of the exclusion
string when it is not empty; the characters kept stay in their order. -/
def filterRef (o : opts) (s : List Char) : List Char :=
  let s := if o.noAmbiguous then s.filter (fun c => decide (c ∉ ambiguous)) else s
  if o.exclude ≠ [] then s.filter (fun c => decide (c ∉ o.exclude)) else s

/-- Reference alphabet, after the specification: the enabled classes in the
order lower, upper, digit, symbol, concatenated and filtered. -/
def alphabetRef (o : opts) : List Char :=
  filterRef o
    ((if o.useLower then lower else []) ++ (if o.useUpper then upper else []) ++
      (if o.useDigits then digits else []) ++ (if o.useSymbols then symbols else []))

/-- Reference list of mandatory subsets, after the specification: the enabled
classes in the order lower, upper, digit, symbol, each filtered on its own,
the empty ones dropped. -/
def mandatoryRef (o : opts) : List (List Char) :=
  (((if o.useLower then [lower] else []) ++ (if o.useUpper then [upper] else []) ++
      (if o.useDigits then [digits] else []) ++ (if o.useSymbols then [symbols] else [])).map
    (filterRef o)).filter (fun s => decide (s ≠ []))

/-- Go `parseFlags()` from the values that `flag.Parse()` stored in `o`: the
length is raised to 4 and the count to 1. -/
def parseFlags (parsed : opts) : opts :=
  let o := parsed
  let o := if o.length < 4 then { o with length := 4 } else o
  let o := if o.count < 1 then { o with count := 1 } else o
  o

/-- A source whose every draw is `1` when the bound allows it. -/
def oneSource : Source := fun _ n =>
  if h : 1 < n then Except.ok ⟨1, h⟩ else Except.error 0

/-- The configuration of the scenario with only lowercase letters, length 8. -/
def lowerOpts (count : Int) (copy : Bool) : opts :=
  ⟨8, true, false, false, false, count, [], false, copy⟩

/-- The configuration of the scenario with the four classes, length 4. -/
def fourOpts (amb : Bool) (count : Int) (copy : Bool) : opts :=
  ⟨4, true, true, true, true, count, [], amb, copy⟩

/-- The calls of `cryptoRandInt` after `tr` are those of `tr1`, each has an
argument of at least 1, and an error returned is the error of the last call
made: the answer of the source at the position of that call, to the bound
that the call asked for. -/
def PosExt (src : Source) (tr tr1 : Trace) (err : Option Err) : Prop :=
  ∃ new, tr1 = tr ++ new ∧ (∀ c ∈ new, 1 ≤ c.n) ∧
    ∀ e, err = some e → ∃ init c code, new = init ++ [c] ∧ c.err = some e ∧
      src (tr.length + init.length) c.n.toNat = Except.error code ∧ e = Err.entropy code

/-- The calls made by `generatePassword modSource 8 lower [lower]`. -/
def lowerTrace : Trace :=
  [⟨26, 0, none⟩, ⟨26, 1, none⟩, ⟨26, 2, none⟩, ⟨26, 3, none⟩, ⟨26, 4, none⟩, ⟨26, 5, none⟩,
    ⟨26, 6, none⟩, ⟨26, 7, none⟩, ⟨8, 0, none⟩, ⟨7, 2, none⟩, ⟨6, 4, none⟩, ⟨5, 1, none⟩,
    ⟨4, 0, none⟩, ⟨3, 1, none⟩, ⟨2, 0, none⟩]

/-- The calls made by `generatePassword modSource 4` for `fourOpts true`. -/
def fourTrace : Trace :=
  [⟨24, 0, none⟩, ⟨24, 1, none⟩, ⟨8, 2, none⟩, ⟨23, 3, none⟩, ⟨4, 0, none⟩, ⟨3, 2, none⟩,
    ⟨2, 0, none⟩]

/-! ## Lemmas on strings -/

theorem runeLen_pos (c : Char) : 0 < runeLen c := by
  unfold runeLen; split_ifs <;> omega

theorem byteLen_eq_zero {s : List Char} : byteLen s = 0 ↔ s = [] := by
  cases s with
  | nil => simp [byteLen]
  | cons c s =>
    have := runeLen_pos c
    simp [byteLen]; omega

theorem byteLen_ascii {s : List Char} (h : isAscii s) : byteLen s = s.length := by
  induction s with
  | nil => rfl
  | cons c s ih =>
    have hc : c.toNat < 128 := h c (List.mem_cons_self c s)
    have hs : isAscii s := fun d hd => h d (List.mem_cons_of_mem c hd)
    have h80 : c.toNat < 0x80 := hc
    simp only [byteLen, runeLen, ih hs, if_pos h80, List.length_cons]
    omega

theorem length_le_byteLen (s : List Char) : s.length ≤ byteLen s := by
  induction s with
  | nil => simp [byteLen]
  | cons c s ih =>
    have := runeLen_pos c
    simp [byteLen]; omega

theorem removeRunesLoop_eq (rm s out : List Char) :
    removeRunesLoop rm s out = out ++ s.filter (fun r => decide (r ∉ rm)) := by
  induction s generalizing out with
  | nil => simp [removeRunesLoop]
  | cons r s ih =>
    by_cases hr : r ∈ rm
    · simp [removeRunesLoop, hr, ih]
    · simp [removeRunesLoop, hr, ih]

theorem removeRunes_eq (s rm : List Char) :
    removeRunes s rm = s.filter (fun r => decide (r ∉ rm)) := by
  simp [removeRunes, removeRunesLoop_eq]

theorem mem_removeRunes {c : Char} {s rm : List Char} :
    c ∈ removeRunes s rm ↔ c ∈ s ∧ c ∉ rm := by
  simp [removeRunes_eq, List.mem_filter]

theorem removeRunes_nil (s : List Char) : removeRunes s [] = s := by
  simp [removeRunes_eq]

theorem mem_uniqueRunesLoop {c : Char} (s seen out : List Char) :
    c ∈ uniqueRunesLoop s seen out ↔ c ∈ out ∨ (c ∈ s ∧ c ∉ seen) := by
  induction s generalizing seen out with
  | nil => simp [uniqueRunesLoop]
  | cons r s ih =>
    by_cases hr : r ∈ seen
    · simp only [uniqueRunesLoop, hr, if_true, ih, List.mem_cons]
      constructor
      · rintro (h | ⟨h1, h2⟩)
        · exact Or.inl h
        · exact Or.inr ⟨Or.inr h1, h2⟩
      · rintro (h | ⟨h1 | h1, h2⟩)
        · exact Or.inl h
        · subst h1; exact absurd hr h2
        · exact Or.inr ⟨h1, h2⟩
    · simp only [uniqueRunesLoop, hr, if_false, ih, List.mem_cons, List.mem_append,
        List.not_mem_nil, or_false, not_or]
      constructor
      · rintro ((h | h) | ⟨h1, h2, h3⟩)
        · exact Or.inl h
        · subst h; exact Or.inr ⟨Or.inl rfl, hr⟩
        · exact Or.inr ⟨Or.inr h1, h3⟩
      · rintro (h | ⟨h1 | h1, h2⟩)
        · exact Or.inl (Or.inl h)
        · exact Or.inl (Or.inr h1)
        · by_cases hc : c = r
          · exact Or.inl (Or.inr hc)
          · exact Or.inr ⟨h1, hc, h2⟩

theorem mem_uniqueRunes {c : Char} {s : List Char} : c ∈ uniqueRunes s ↔ c ∈ s := by
  simp [uniqueRunes, mem_uniqueRunesLoop]

theorem buildCharset_eq (o : opts) :
    buildCharset o =
      (if o.exclude ≠ [] then fun cs => removeRunes cs o.exclude else id)
        ((if o.noAmbiguous then fun cs => removeRunes cs ambiguous else id)
          (uniqueRunes (enabledConcat o))) := by
  unfold buildCharset enabledConcat
  cases o.useLower <;> cases o.useUpper <;> cases o.useDigits <;> cases o.useSymbols <;>
    cases o.noAmbiguous <;> by_cases hx : o.exclude = [] <;> simp [hx]

theorem mem_buildCharset {c : Char} {o : opts} :
    c ∈ buildCharset o ↔
      c ∈ enabledConcat o ∧ (o.noAmbiguous = true → c ∉ ambiguous) ∧ c ∉ o.exclude := by
  rw [buildCharset_eq]
  by_cases hx : o.exclude = [] <;> cases ha : o.noAmbiguous <;>
    simp [hx, mem_removeRunes, mem_uniqueRunes, and_assoc]

theorem dropEmpty_eq (sets out : List (List Char)) :
    dropEmpty sets out = out ++ (sets.filter (fun s => decide (s ≠ []))).map uniqueRunes := by
  induction sets generalizing out with
  | nil => simp [dropEmpty]
  | cons s sets ih =>
    by_cases hs : s = []
    · simp [dropEmpty, hs, ih]
    · simp [dropEmpty, hs, ih]

theorem mustIncludes_eq (o : opts) :
    mustIncludes o =
      dropEmpty
        ((if o.exclude ≠ [] then List.map (fun s => removeRunes s o.exclude) else id)
          ((if o.noAmbiguous then List.map (fun s => removeRunes s ambiguous) else id)
            (enabledSets o))) [] := by
  unfold mustIncludes enabledSets
  cases o.useLower <;> cases o.useUpper <;> cases o.useDigits <;> cases o.useSymbols <;>
    cases o.noAmbiguous <;> by_cases hx : o.exclude = [] <;> simp [hx]

theorem mem_enabledConcat {c : Char} {o : opts} :
    c ∈ enabledConcat o ↔ ∃ cls ∈ enabledSets o, c ∈ cls := by
  unfold enabledConcat enabledSets
  cases o.useLower <;> cases o.useUpper <;> cases o.useDigits <;> cases o.useSymbols <;>
    simp [or_assoc]

theorem mem_mustIncludes {s : List Char} {o : opts} (hs : s ∈ mustIncludes o) :
    ∃ cls ∈ enabledSets o, s ≠ [] ∧
      ∀ c, c ∈ s ↔ c ∈ cls ∧ (o.noAmbiguous = true → c ∉ ambiguous) ∧ c ∉ o.exclude := by
  rw [mustIncludes_eq, dropEmpty_eq] at hs
  simp only [List.nil_append, List.mem_map, List.mem_filter] at hs
  obtain ⟨t, ⟨ht, hne⟩, rfl⟩ := hs
  have hne2 : t ≠ [] := by simpa using hne
  have hne3 : uniqueRunes t ≠ [] := by
    obtain ⟨x, hx⟩ := List.exists_mem_of_ne_nil t hne2
    exact List.ne_nil_of_mem (mem_uniqueRunes.mpr hx)
  by_cases hx : o.exclude = [] <;> cases ha : o.noAmbiguous <;>
    simp only [hx, ha, ne_eq, not_true_eq_false, not_false_eq_true, if_true, if_false, id,
      List.mem_map, Bool.false_eq_true] at ht
  · exact ⟨t, ht, hne3, fun c => by simp [mem_uniqueRunes, hx]⟩
  · obtain ⟨cls, hcls, rfl⟩ := ht
    exact ⟨cls, hcls, hne3, fun c => by simp [mem_uniqueRunes, mem_removeRunes, hx]⟩
  · obtain ⟨cls, hcls, rfl⟩ := ht
    exact ⟨cls, hcls, hne3, fun c => by simp [mem_uniqueRunes, mem_removeRunes]⟩
  · obtain ⟨u, ⟨cls, hcls, rfl⟩, rfl⟩ := ht
    exact ⟨cls, hcls, hne3, fun c => by simp [mem_uniqueRunes, mem_removeRunes, and_assoc]⟩

theorem mustIncludes_subset_buildCharset {s : List Char} {o : opts} (hs : s ∈ mustIncludes o)
    {c : Char} (hc : c ∈ s) : c ∈ buildCharset o := by
  obtain ⟨cls, hcls, -, hmem⟩ := mem_mustIncludes hs
  obtain ⟨h1, h2, h3⟩ := (hmem c).mp hc
  exact mem_buildCharset.mpr ⟨mem_enabledConcat.mpr ⟨cls, hcls, h1⟩, h2, h3⟩

/-! ## The sampler and its trace -/

theorem cryptoRandInt_eq (src : Source) (n : Int) (tr : Trace) :
    cryptoRandInt src n tr =
      (((callOf src tr.length n).val, (callOf src tr.length n).err),
        tr ++ [callOf src tr.length n]) := by
  unfold cryptoRandInt callOf
  split_ifs with hn
  · rfl
  · split <;> rfl

theorem callOf_n (src : Source) (t : Nat) (n : Int) : (callOf src t n).n = n := by
  unfold callOf
  split_ifs with hn
  · rfl
  · split <;> rfl

theorem callOf_val_lt (src : Source) (t : Nat) {n : Int}
    (h : (callOf src t n).err = none) : 0 < n ∧ (callOf src t n).val < n.toNat := by
  by_cases hn : n ≤ 0
  · simp [callOf, hn] at h
  · unfold callOf at h ⊢
    rw [if_neg hn] at h ⊢
    cases hv : src t n.toNat with
    | error c => rw [hv] at h; simp at h
    | ok v => exact ⟨by omega, v.isLt⟩

theorem callOf_working {src : Source} (hw : Working src) (t : Nat) {n : Int} (hn : 0 < n) :
    (callOf src t n).err = none := by
  obtain ⟨v, hv⟩ := hw t n.toNat (by omega)
  unfold callOf
  rw [if_neg (by omega)]
  simp [hv]

theorem callOf_err (src : Source) (t : Nat) (n : Int) (e : Err)
    (h : (callOf src t n).err = some e) :
    (n ≤ 0 ∧ e = Err.nInvalido) ∨
      (0 < n ∧ ∃ c, src t n.toNat = Except.error c ∧ e = Err.entropy c) := by
  by_cases hn : n ≤ 0
  · simp [callOf, hn] at h
    exact Or.inl ⟨hn, h.symm⟩
  · unfold callOf at h
    rw [if_neg hn] at h
    cases hv : src t n.toNat with
    | error c =>
      rw [hv] at h
      simp at h
      exact Or.inr ⟨by omega, c, rfl, h.symm⟩
    | ok v => rw [hv] at h; simp at h

theorem Faithful.snoc {src : Source} {tr : Trace} (h : Faithful src tr) (n : Int) :
    Faithful src (tr ++ [callOf src tr.length n]) := by
  intro t ht
  by_cases hlt : t < tr.length
  · have := h t hlt
    simp only [List.getElem_append_left hlt]
    exact this
  · have ht2 : t = tr.length := by
      simp at ht; omega
    subst ht2
    simp [callOf_n]

theorem Ext.refl (src : Source) (tr : Trace) (err : Option Err) : Ext src tr tr err :=
  ⟨[], by simp, by simp, id⟩

theorem Ext.call (src : Source) (tr : Trace) (n : Int) :
    Ext src tr (tr ++ [callOf src tr.length n]) (callOf src tr.length n).err :=
  ⟨[callOf src tr.length n], rfl, by simp, fun h => h.snoc n⟩

theorem Ext.trans {src : Source} {tr tr1 tr2 : Trace} {err : Option Err}
    (h1 : Ext src tr tr1 none) (h2 : Ext src tr1 tr2 err) : Ext src tr tr2 err := by
  obtain ⟨n1, rfl, c1, f1⟩ := h1
  obtain ⟨n2, rfl, c2, f2⟩ := h2
  refine ⟨n1 ++ n2, by simp, ?_, fun h => f2 (f1 h)⟩
  intro c hc e he
  rcases List.mem_append.mp hc with hc | hc
  · exact absurd (c1 c hc e he) (by simp)
  · exact c2 c hc e he

/-! ## `pickRune` -/

theorem pickRune_eq (src : Source) (frm : List Char) (tr : Trace) :
    pickRune src frm tr =
      match (callOf src tr.length (byteLen frm)).err with
      | some e => some ((Char.ofNat 0, some e), tr ++ [callOf src tr.length (byteLen frm)])
      | none =>
        match frm[(callOf src tr.length (byteLen frm)).val]? with
        | some r => some ((r, none), tr ++ [callOf src tr.length (byteLen frm)])
        | none => none := by
  unfold pickRune
  rw [cryptoRandInt_eq]
  cases h : (callOf src tr.length (byteLen frm)).err <;> simp

theorem pickRune_trace {src : Source} {frm : List Char} {tr tr1 : Trace} {r : Char}
    {err : Option Err} (h : pickRune src frm tr = some ((r, err), tr1)) :
    Ext src tr tr1 err := by
  rw [pickRune_eq] at h
  have hc := Ext.call src tr (byteLen frm)
  cases he : (callOf src tr.length (byteLen frm)).err with
  | some e =>
    rw [he] at h hc
    simp at h
    obtain ⟨⟨-, rfl⟩, rfl⟩ := h
    exact hc
  | none =>
    rw [he] at h hc
    simp only at h
    cases hr : frm[(callOf src tr.length (byteLen frm)).val]? with
    | none => rw [hr] at h; simp at h
    | some r0 =>
      rw [hr] at h
      simp at h
      obtain ⟨⟨-, rfl⟩, rfl⟩ := h
      exact hc

theorem pickRune_mem {src : Source} {frm : List Char} {tr tr1 : Trace} {r : Char}
    (h : pickRune src frm tr = some ((r, none), tr1)) : r ∈ frm := by
  rw [pickRune_eq] at h
  cases he : (callOf src tr.length (byteLen frm)).err with
  | some e => rw [he] at h; simp at h
  | none =>
    rw [he] at h
    simp only at h
    cases hr : frm[(callOf src tr.length (byteLen frm)).val]? with
    | none => rw [hr] at h; simp at h
    | some r0 =>
      rw [hr] at h
      simp at h
      obtain ⟨rfl, -⟩ := h
      exact List.getElem?_mem hr

theorem pickRune_ok {src : Source} (hw : Working src) {frm : List Char} (hne : frm ≠ [])
    (ha : isAscii frm) (tr : Trace) :
    ∃ r tr1, pickRune src frm tr = some ((r, none), tr1) := by
  have hpos : (0 : Int) < byteLen frm := by
    have : byteLen frm ≠ 0 := fun h => hne (byteLen_eq_zero.mp h)
    omega
  have he := callOf_working hw tr.length hpos
  have hlt := (callOf_val_lt src tr.length he).2
  rw [pickRune_eq, he]
  simp only
  have hidx : (callOf src tr.length (byteLen frm)).val < frm.length := by
    rw [← byteLen_ascii ha]; simpa using hlt
  rw [List.getElem?_eq_getElem hidx]
  exact ⟨_, _, rfl⟩

/-! ## `swapRunes` and `shuffleRunes` -/

theorem swapRunes_eq {runes : List Char} {i j : Nat} (hi : i < runes.length)
    (hj : j < runes.length) :
    swapRunes runes i j = some ((runes.set i runes[j]).set j runes[i]) := by
  simp [swapRunes, List.getElem?_eq_getElem hi, List.getElem?_eq_getElem hj]

theorem swap_perm (l : List Char) (i j : Nat) (hi : i < l.length) (hj : j < l.length) :
    ((l.set i l[j]).set j l[i]).Perm l := by
  rw [List.perm_iff_count]
  intro a
  by_cases hij : i = j
  · subst hij
    have h1 := List.boole_getElem_le_count a l i hi
    simp only [List.set_set, List.count_set _ _ _ _ hi, beq_iff_eq] at *
    split_ifs at * <;> omega
  · rw [List.count_set _ _ _ _ (by simpa using hj), List.count_set _ _ _ _ hi]
    rw [List.getElem_set_ne hij]
    have h1 := List.boole_getElem_le_count a l i hi
    have h2 := List.boole_getElem_le_count a l j hj
    simp only [beq_iff_eq] at *
    split_ifs at * <;> omega

theorem shuffleLoop_spec (src : Source) (i : Nat) (runes : List Char) (tr : Trace)
    (hi : i ≤ runes.length - 1) :
    ∃ p err tr1, shuffleLoop src i runes tr = some ((p, err), tr1) ∧ p.Perm runes ∧
      Ext src tr tr1 err ∧ (Working src → err = none) := by
  induction i generalizing runes tr with
  | zero => exact ⟨runes, none, tr, rfl, List.Perm.refl _, Ext.refl _ _ _, fun _ => rfl⟩
  | succ i ih =>
    have hc := Ext.call src tr (((i + 1 : Nat) : Int) + 1)
    simp only [shuffleLoop, cryptoRandInt_eq]
    cases he : (callOf src tr.length (((i + 1 : Nat) : Int) + 1)).err with
    | some e =>
      rw [he] at hc
      refine ⟨runes, some e, _, rfl, List.Perm.refl _, hc, fun hw => ?_⟩
      have := callOf_working hw tr.length (n := ((i + 1 : Nat) : Int) + 1) (by omega)
      rw [this] at he
      exact he.symm
    | none =>
      rw [he] at hc
      have hlt := (callOf_val_lt src tr.length he).2
      have hj : (callOf src tr.length (((i + 1 : Nat) : Int) + 1)).val < runes.length := by
        have : (((i + 1 : Nat) : Int) + 1).toNat = i + 2 := by omega
        omega
      have hi1 : i + 1 < runes.length := by omega
      simp only [swapRunes_eq hi1 hj]
      obtain ⟨p, err, tr1, h1, h2, h3, h4⟩ :=
        ih ((runes.set (i + 1) runes[(callOf src tr.length (((i + 1 : Nat) : Int) + 1)).val]).set
            (callOf src tr.length (((i + 1 : Nat) : Int) + 1)).val runes[i + 1])
          (tr ++ [callOf src tr.length (((i + 1 : Nat) : Int) + 1)])
          (by simp; omega)
      exact ⟨p, err, tr1, h1, h2.trans (swap_perm runes _ _ hi1 hj), hc.trans h3, h4⟩

theorem shuffleRunes_spec (src : Source) (runes : List Char) (tr : Trace) :
    ∃ p err tr1, shuffleRunes src runes tr = some ((p, err), tr1) ∧ p.Perm runes ∧
      Ext src tr tr1 err ∧ (Working src → err = none) :=
  shuffleLoop_spec src (runes.length - 1) runes tr (Nat.le_refl _)

/-! ## The loops of `generatePassword` -/

theorem mustLoop_spec {src : Source} {must : List (List Char)} {pw pw1 : List Char}
    {tr tr1 : Trace} {err : Option Err}
    (h : mustLoop src must pw tr = some ((pw1, err), tr1)) :
    Ext src tr tr1 err ∧ (∀ e, err = some e → pw1 = []) ∧
      (err = none → ∃ picks, pw1 = pw ++ picks ∧ List.Forall₂ (fun r s => r ∈ s) picks must) := by
  induction must generalizing pw tr with
  | nil =>
    simp [mustLoop] at h
    obtain ⟨⟨rfl, rfl⟩, rfl⟩ := h
    exact ⟨Ext.refl _ _ _, by simp, fun _ => ⟨[], by simp, List.Forall₂.nil⟩⟩
  | cons set rest ih =>
    simp only [mustLoop] at h
    cases hp : pickRune src set tr with
    | none => rw [hp] at h; simp at h
    | some res =>
      obtain ⟨⟨r, e⟩, tr2⟩ := res
      have ht := pickRune_trace hp
      cases e with
      | some e =>
        rw [hp] at h
        simp at h
        obtain ⟨⟨rfl, rfl⟩, rfl⟩ := h
        exact ⟨ht, fun _ _ => rfl, by simp⟩
      | none =>
        rw [hp] at h
        simp only at h
        obtain ⟨h1, h2, h3⟩ := ih h
        refine ⟨ht.trans h1, h2, fun hn => ?_⟩
        obtain ⟨picks, rfl, hf⟩ := h3 hn
        exact ⟨r :: picks, by simp, List.Forall₂.cons (pickRune_mem hp) hf⟩

theorem mustLoop_ok {src : Source} (hw : Working src) {must : List (List Char)}
    (hm : ∀ s ∈ must, s ≠ [] ∧ isAscii s) (pw : List Char) (tr : Trace) :
    ∃ pw1 tr1, mustLoop src must pw tr = some ((pw1, none), tr1) := by
  induction must generalizing pw tr with
  | nil => exact ⟨pw, tr, rfl⟩
  | cons set rest ih =>
    obtain ⟨hne, ha⟩ := hm set (List.mem_cons_self _ _)
    obtain ⟨r, tr2, hp⟩ := pickRune_ok hw hne ha tr
    simp only [mustLoop, hp]
    exact ih (fun s hs => hm s (List.mem_cons_of_mem _ hs)) _ _

theorem fillLoop_spec {src : Source} {charset : List Char} {length : Int} {fuel : Nat}
    {pw pw1 : List Char} {tr tr1 : Trace} {err : Option Err}
    (h : fillLoop src charset length fuel pw tr = some ((pw1, err), tr1)) :
    Ext src tr tr1 err ∧ (∀ e, err = some e → pw1 = []) ∧
      (err = none → ∃ extra, pw1 = pw ++ extra ∧ (∀ c ∈ extra, c ∈ charset) ∧
        (fuel = (length - (pw.length : Int)).toNat →
          (pw1.length : Int) = max length (pw.length : Int))) := by
  induction fuel generalizing pw tr with
  | zero =>
    simp [fillLoop] at h
    obtain ⟨⟨rfl, rfl⟩, rfl⟩ := h
    refine ⟨Ext.refl _ _ _, by simp, fun _ => ⟨[], by simp, by simp, fun hf => ?_⟩⟩
    omega
  | succ fuel ih =>
    simp only [fillLoop] at h
    by_cases hg : (pw.length : Int) < length
    · rw [if_pos hg] at h
      cases hp : pickRune src charset tr with
      | none => rw [hp] at h; simp at h
      | some res =>
        obtain ⟨⟨r, e⟩, tr2⟩ := res
        have ht := pickRune_trace hp
        cases e with
        | some e =>
          rw [hp] at h
          simp at h
          obtain ⟨⟨rfl, rfl⟩, rfl⟩ := h
          exact ⟨ht, fun _ _ => rfl, by simp⟩
        | none =>
          rw [hp] at h
          simp only at h
          obtain ⟨h1, h2, h3⟩ := ih h
          refine ⟨ht.trans h1, h2, fun hn => ?_⟩
          obtain ⟨extra, rfl, hmem, hlen⟩ := h3 hn
          refine ⟨r :: extra, by simp, ?_, fun hf => ?_⟩
          · intro c hc
            rcases List.mem_cons.mp hc with rfl | hc
            · exact pickRune_mem hp
            · exact hmem c hc
          · have := hlen (by simp; omega)
            simp at this ⊢
            omega
    · rw [if_neg hg] at h
      simp at h
      obtain ⟨⟨rfl, rfl⟩, rfl⟩ := h
      refine ⟨Ext.refl _ _ _, by simp, fun _ => ⟨[], by simp, by simp, fun _ => ?_⟩⟩
      omega

theorem fillLoop_ok {src : Source} (hw : Working src) {charset : List Char}
    (hne : charset ≠ []) (ha : isAscii charset) (length : Int) (fuel : Nat) (pw : List Char)
    (tr : Trace) :
    ∃ pw1 tr1, fillLoop src charset length fuel pw tr = some ((pw1, none), tr1) := by
  induction fuel generalizing pw tr with
  | zero => exact ⟨pw, tr, rfl⟩
  | succ fuel ih =>
    simp only [fillLoop]
    by_cases hg : (pw.length : Int) < length
    · rw [if_pos hg]
      obtain ⟨r, tr2, hp⟩ := pickRune_ok hw hne ha tr
      simp only [hp]
      exact ih _ _
    · rw [if_neg hg]
      exact ⟨pw, tr, rfl⟩

/-! ## `generatePassword` -/

theorem forall₂_right {R : Char → List Char → Prop} {l1 : List Char} {l2 : List (List Char)}
    (h : List.Forall₂ R l1 l2) : ∀ b ∈ l2, ∃ a ∈ l1, R a b := by
  induction h with
  | nil => simp
  | cons hab _ ih =>
    intro b hb
    rcases List.mem_cons.mp hb with rfl | hb
    · exact ⟨_, List.mem_cons_self _ _, hab⟩
    · obtain ⟨a, ha, hr⟩ := ih b hb
      exact ⟨a, List.mem_cons_of_mem _ ha, hr⟩

theorem forall₂_left {R : Char → List Char → Prop} {l1 : List Char} {l2 : List (List Char)}
    (h : List.Forall₂ R l1 l2) : ∀ a ∈ l1, ∃ b ∈ l2, R a b := by
  induction h with
  | nil => simp
  | cons hab _ ih =>
    intro a ha
    rcases List.mem_cons.mp ha with rfl | ha
    · exact ⟨_, List.mem_cons_self _ _, hab⟩
    · obtain ⟨b, hb, hr⟩ := ih a ha
      exact ⟨b, List.mem_cons_of_mem _ hb, hr⟩

/-- What a returned result of `generatePassword` looks like: the trace is
extended, an error comes with the empty string, and a password is a
permutation of the mandatory picks followed by the fill picks. -/
theorem generatePassword_spec {src : Source} {length : Int} {charset : List Char}
    {must : List (List Char)} {tr tr1 : Trace} {pw : List Char} {err : Option Err}
    (h : generatePassword src length charset must tr = some ((pw, err), tr1)) :
    Ext src tr tr1 err ∧ (∀ e, err = some e → pw = []) ∧
      (err = none → charset ≠ [] ∧ ∃ picks extra, pw.Perm (picks ++ extra) ∧
        List.Forall₂ (fun r s => r ∈ s) picks must ∧ (∀ c ∈ extra, c ∈ charset) ∧
        (pw.length : Int) = max length (must.length : Int)) := by
  unfold generatePassword at h
  by_cases hz : byteLen charset = 0
  · rw [if_pos hz] at h
    simp at h
    obtain ⟨⟨rfl, rfl⟩, rfl⟩ := h
    exact ⟨Ext.refl _ _ _, fun _ _ => rfl, by simp⟩
  · rw [if_neg hz] at h
    have hne : charset ≠ [] := fun hc => hz (byteLen_eq_zero.mpr hc)
    simp only at h
    cases hm : mustLoop src must [] tr with
    | none => rw [hm] at h; simp at h
    | some res =>
      obtain ⟨⟨pw0, e0⟩, tr0⟩ := res
      obtain ⟨m1, m2, m3⟩ := mustLoop_spec hm
      rw [hm] at h
      cases e0 with
      | some e =>
        simp at h
        obtain ⟨⟨rfl, rfl⟩, rfl⟩ := h
        exact ⟨m1, fun _ _ => rfl, by simp⟩
      | none =>
        simp only at h
        obtain ⟨picks, hpicks, hforall⟩ := m3 rfl
        simp only [List.nil_append] at hpicks
        subst hpicks
        have hlen0 : pw0.length = must.length := hforall.length_eq
        cases hf : fillLoop src charset
            (if length < (must.length : Int) then (must.length : Int) else length)
            ((if length < (must.length : Int) then (must.length : Int) else length) -
              (pw0.length : Int)).toNat pw0 tr0 with
        | none => rw [hf] at h; simp at h
        | some res =>
          obtain ⟨⟨pw1, e1⟩, tr2⟩ := res
          obtain ⟨f1, f2, f3⟩ := fillLoop_spec hf
          rw [hf] at h
          cases e1 with
          | some e =>
            simp at h
            obtain ⟨⟨rfl, rfl⟩, rfl⟩ := h
            exact ⟨m1.trans f1, fun _ _ => rfl, by simp⟩
          | none =>
            simp only at h
            obtain ⟨extra, hextra, hmem, hlen⟩ := f3 rfl
            obtain ⟨p, e2, tr3, s1, s2, s3, -⟩ := shuffleRunes_spec src pw1 tr2
            rw [s1] at h
            cases e2 with
            | some e =>
              simp at h
              obtain ⟨⟨rfl, rfl⟩, rfl⟩ := h
              exact ⟨m1.trans (f1.trans s3), fun _ _ => rfl, by simp⟩
            | none =>
              simp at h
              obtain ⟨⟨rfl, rfl⟩, rfl⟩ := h
              refine ⟨m1.trans (f1.trans s3), by simp, fun _ => ⟨hne, pw0, extra, ?_, hforall,
                hmem, ?_⟩⟩
              · rw [← hextra]; exact s2
              · have hl := hlen rfl
                rw [s2.length_eq]
                split_ifs at hl <;> omega

/-- With a working source and non-empty ASCII sets, `generatePassword` returns
a password and no error. -/
theorem generatePassword_ok {src : Source} (hw : Working src) (length : Int)
    {charset : List Char} {must : List (List Char)} (tr : Trace) (hc : charset ≠ [])
    (hca : isAscii charset) (hm : ∀ s ∈ must, s ≠ [] ∧ isAscii s) :
    ∃ pw tr1, generatePassword src length charset must tr = some ((pw, none), tr1) := by
  unfold generatePassword
  have hz : byteLen charset ≠ 0 := fun h => hc (byteLen_eq_zero.mp h)
  rw [if_neg hz]
  obtain ⟨pw0, tr0, h0⟩ := mustLoop_ok hw hm [] tr
  simp only [h0]
  obtain ⟨pw1, tr2, h1⟩ := fillLoop_ok hw hc hca
    (if length < (must.length : Int) then (must.length : Int) else length)
    ((if length < (must.length : Int) then (must.length : Int) else length) -
      (pw0.length : Int)).toNat pw0 tr0
  simp only [h1]
  obtain ⟨p, e2, tr3, s1, -, -, s4⟩ := shuffleRunes_spec src pw1 tr2
  have := s4 hw
  subst this
  simp only [s1]
  exact ⟨p, tr3, rfl⟩

theorem working_modSource : Working modSource := by
  intro t n hn
  exact ⟨⟨t % n, Nat.mod_lt t hn⟩, by simp [modSource, hn]⟩

/-! ## No panic on ASCII sets -/

theorem pickRune_returns (src : Source) {frm : List Char} (ha : isAscii frm) (tr : Trace) :
    ∃ res, pickRune src frm tr = some res := by
  rw [pickRune_eq]
  cases he : (callOf src tr.length (byteLen frm)).err with
  | some e => exact ⟨_, rfl⟩
  | none =>
    have hlt := (callOf_val_lt src tr.length he).2
    have hidx : (callOf src tr.length (byteLen frm)).val < frm.length := by
      rw [← byteLen_ascii ha]; simpa using hlt
    simp only [List.getElem?_eq_getElem hidx]
    exact ⟨_, rfl⟩

theorem mustLoop_returns (src : Source) {must : List (List Char)}
    (hm : ∀ s ∈ must, isAscii s) (pw : List Char) (tr : Trace) :
    ∃ res, mustLoop src must pw tr = some res := by
  induction must generalizing pw tr with
  | nil => exact ⟨_, rfl⟩
  | cons set rest ih =>
    obtain ⟨⟨⟨r, e⟩, tr2⟩, hp⟩ := pickRune_returns src (hm set (List.mem_cons_self _ _)) tr
    simp only [mustLoop, hp]
    cases e with
    | some e => exact ⟨_, rfl⟩
    | none => exact ih (fun s hs => hm s (List.mem_cons_of_mem _ hs)) _ _

theorem fillLoop_returns (src : Source) {charset : List Char} (ha : isAscii charset)
    (length : Int) (fuel : Nat) (pw : List Char) (tr : Trace) :
    ∃ res, fillLoop src charset length fuel pw tr = some res := by
  induction fuel generalizing pw tr with
  | zero => exact ⟨_, rfl⟩
  | succ fuel ih =>
    simp only [fillLoop]
    by_cases hg : (pw.length : Int) < length
    · rw [if_pos hg]
      obtain ⟨⟨⟨r, e⟩, tr2⟩, hp⟩ := pickRune_returns src ha tr
      simp only [hp]
      cases e with
      | some e => exact ⟨_, rfl⟩
      | none => exact ih _ _
    · rw [if_neg hg]
      exact ⟨_, rfl⟩

theorem generatePassword_returns (src : Source) (length : Int) {charset : List Char}
    {must : List (List Char)} (tr : Trace) (hca : isAscii charset)
    (hm : ∀ s ∈ must, isAscii s) :
    ∃ res, generatePassword src length charset must tr = some res := by
  unfold generatePassword
  by_cases hz : byteLen charset = 0
  · rw [if_pos hz]; exact ⟨_, rfl⟩
  · rw [if_neg hz]
    obtain ⟨⟨⟨pw0, e0⟩, tr0⟩, h0⟩ := mustLoop_returns src hm [] tr
    simp only [h0]
    cases e0 with
    | some e => exact ⟨_, rfl⟩
    | none =>
      obtain ⟨⟨⟨pw1, e1⟩, tr2⟩, h1⟩ := fillLoop_returns src hca
        (if length < (must.length : Int) then (must.length : Int) else length)
        ((if length < (must.length : Int) then (must.length : Int) else length) -
          (pw0.length : Int)).toNat pw0 tr0
      simp only [h1]
      cases e1 with
      | some e => exact ⟨_, rfl⟩
      | none =>
        obtain ⟨p, e2, tr3, s1, -⟩ := shuffleRunes_spec src pw1 tr2
        simp only [s1]
        cases e2 with
        | some e => exact ⟨_, rfl⟩
        | none => exact ⟨_, rfl⟩

/-! ## The claims -/

/-- C1: for every requested length, every non-empty ASCII charset, every list
`must` of non-empty ASCII subsets and every source whose draws all succeed,
`generatePassword` returns a password and no error, and the number of
characters of the password is `max(length, len(must))`. -/
theorem generatePassword_length (src : Source) (hw : Working src) (length : Int)
    (charset : List Char) (must : List (List Char)) (tr : Trace) (hc : charset ≠ [])
    (hca : isAscii charset) (hm : ∀ s ∈ must, s ≠ [] ∧ isAscii s) :
    ∃ pw tr1, generatePassword src length charset must tr = some ((pw, none), tr1) ∧
      (pw.length : Int) = max length (must.length : Int) := by
  obtain ⟨pw, tr1, h⟩ := generatePassword_ok hw length tr hc hca hm
  exact ⟨pw, tr1, h, ((generatePassword_spec h).2.2 rfl).2.choose_spec.choose_spec.2.2.2⟩

theorem generatePassword_length_witness :
    Working modSource ∧ lower ≠ [] ∧ isAscii lower ∧
      (∀ s ∈ [lower, digits, upper], s ≠ [] ∧ isAscii s) ∧
      ∃ pw tr1, generatePassword modSource 2 lower [lower, digits, upper] [] =
          some ((pw, none), tr1) ∧
        (pw.length : Int) = max 2 (([lower, digits, upper] : List (List Char)).length : Int) :=
  ⟨working_modSource, by decide, by decide, by decide,
    generatePassword_length modSource working_modSource 2 lower [lower, digits, upper] []
      (by decide) (by decide) (by decide)⟩

/-- C2: for every successful call of `generatePassword` and every subset `s`
of `must`, the returned password contains a character that is a member of
`s`. -/
theorem generatePassword_mandatory (src : Source) (length : Int) (charset : List Char)
    (must : List (List Char)) (tr tr1 : Trace) (pw : List Char)
    (h : generatePassword src length charset must tr = some ((pw, none), tr1)) :
    ∀ s ∈ must, ∃ c ∈ pw, c ∈ s := by
  obtain ⟨-, picks, extra, hperm, hforall, -, -⟩ := (generatePassword_spec h).2.2 rfl
  intro s hs
  obtain ⟨r, hr, hrs⟩ := forall₂_right hforall s hs
  exact ⟨r, hperm.mem_iff.mpr (List.mem_append_left _ hr), hrs⟩

theorem generatePassword_mandatory_witness :
    generatePassword modSource 2 lower [lower, digits, upper] [] =
        some (("1Ca".toList, none), sampleTrace) ∧
      ∀ s ∈ [lower, digits, upper], ∃ c ∈ "1Ca".toList, c ∈ s :=
  ⟨by decide,
    generatePassword_mandatory modSource 2 lower [lower, digits, upper] [] sampleTrace
      "1Ca".toList (by decide)⟩

/-- C3: for every configuration `o` and every source, when
`generatePassword(o.length, buildCharset(o), mustIncludes(o))` succeeds every
character of the returned password is a member of `buildCharset(o)`. -/
theorem generatePassword_in_charset (src : Source) (o : opts) (tr tr1 : Trace)
    (pw : List Char)
    (h : generatePassword src o.length (buildCharset o) (mustIncludes o) tr =
      some ((pw, none), tr1)) :
    ∀ c ∈ pw, c ∈ buildCharset o := by
  obtain ⟨-, picks, extra, hperm, hforall, hextra, -⟩ := (generatePassword_spec h).2.2 rfl
  intro c hc
  rcases List.mem_append.mp (hperm.mem_iff.mp hc) with hp | he
  · obtain ⟨s, hs, hcs⟩ := forall₂_left hforall c hp
    exact mustIncludes_subset_buildCharset hs hcs
  · exact hextra c he

theorem generatePassword_in_charset_witness :
    generatePassword modSource sampleOpts.length (buildCharset sampleOpts)
        (mustIncludes sampleOpts) [] = some (("3dca".toList, none), sampleOptsTrace) ∧
      ∀ c ∈ "3dca".toList, c ∈ buildCharset sampleOpts :=
  ⟨by decide,
    generatePassword_in_charset modSource sampleOpts [] sampleOptsTrace "3dca".toList
      (by decide)⟩

/-- Every character of a returned password, with or without an error, comes
from a mandatory subset or from the charset. -/
theorem generatePassword_mem {src : Source} {length : Int} {charset : List Char}
    {must : List (List Char)} {tr tr1 : Trace} {pw : List Char} {err : Option Err}
    (h : generatePassword src length charset must tr = some ((pw, err), tr1))
    {c : Char} (hc : c ∈ pw) : c ∈ charset ∨ ∃ s ∈ must, c ∈ s := by
  obtain ⟨-, h2, h3⟩ := generatePassword_spec h
  cases err with
  | some e => rw [h2 e rfl] at hc; simp at hc
  | none =>
    obtain ⟨-, picks, extra, hperm, hforall, hextra, -⟩ := h3 rfl
    rcases List.mem_append.mp (hperm.mem_iff.mp hc) with hp | he
    · exact Or.inr (forall₂_left hforall c hp)
    · exact Or.inl (hextra c he)

/-- C4: for every configuration `o` with `noAmbiguous` set, no character of
`ambiguous` occurs in `buildCharset(o)`, in a subset of `mustIncludes(o)`, or
in a password returned by
`generatePassword(o.length, buildCharset(o), mustIncludes(o))`. -/
theorem noAmbiguous_filters (o : opts) (ha : o.noAmbiguous = true) (c : Char)
    (hc : c ∈ ambiguous) :
    c ∉ buildCharset o ∧ (∀ s ∈ mustIncludes o, c ∉ s) ∧
      ∀ (src : Source) (tr tr1 : Trace) (pw : List Char) (err : Option Err),
        generatePassword src o.length (buildCharset o) (mustIncludes o) tr =
          some ((pw, err), tr1) → c ∉ pw := by
  have h1 : c ∉ buildCharset o := fun h => (mem_buildCharset.mp h).2.1 ha hc
  have h2 : ∀ s ∈ mustIncludes o, c ∉ s := fun s hs h =>
    h1 (mustIncludes_subset_buildCharset hs h)
  refine ⟨h1, h2, fun src tr tr1 pw err h hpw => ?_⟩
  rcases generatePassword_mem h hpw with hcs | ⟨s, hs, hcs⟩
  · exact h1 hcs
  · exact h2 s hs hcs

theorem noAmbiguous_filters_witness :
    defaultOpts.noAmbiguous = true ∧ 'l' ∈ ambiguous ∧
      ('l' ∉ buildCharset defaultOpts ∧ (∀ s ∈ mustIncludes defaultOpts, 'l' ∉ s) ∧
        ∀ (src : Source) (tr tr1 : Trace) (pw : List Char) (err : Option Err),
          generatePassword src defaultOpts.length (buildCharset defaultOpts)
            (mustIncludes defaultOpts) tr = some ((pw, err), tr1) → 'l' ∉ pw) :=
  ⟨by decide, by decide, noAmbiguous_filters defaultOpts (by decide) 'l' (by decide)⟩

/-- C5: for every configuration `o`, so for every one with a non-empty
exclusion string, whatever the ambiguous flag, no character of `o.exclude`
occurs in
`buildCharset(o)`, in a subset of `mustIncludes(o)`, or in a password returned
by `generatePassword(o.length, buildCharset(o), mustIncludes(o))`; and with
`exclude = "0Ol1"` and the ambiguous filter off the alphabet contains none of
`0`, `O`, `l`, `1`. -/
theorem exclude_filters (o : opts) :
    (∀ c ∈ o.exclude,
      c ∉ buildCharset o ∧ (∀ s ∈ mustIncludes o, c ∉ s) ∧
        ∀ (src : Source) (tr tr1 : Trace) (pw : List Char) (err : Option Err),
          generatePassword src o.length (buildCharset o) (mustIncludes o) tr =
            some ((pw, err), tr1) → c ∉ pw) ∧
      (o.exclude = "0Ol1".toList → o.noAmbiguous = false →
        '0' ∉ buildCharset o ∧ 'O' ∉ buildCharset o ∧ 'l' ∉ buildCharset o ∧
          '1' ∉ buildCharset o) := by
  have h1 : ∀ c ∈ o.exclude, c ∉ buildCharset o := fun c hc h =>
    (mem_buildCharset.mp h).2.2 hc
  have h2 : ∀ c ∈ o.exclude, ∀ s ∈ mustIncludes o, c ∉ s := fun c hc s hs h =>
    h1 c hc (mustIncludes_subset_buildCharset hs h)
  refine ⟨fun c hc => ⟨h1 c hc, h2 c hc, fun src tr tr1 pw err h hpw => ?_⟩, fun he _ => ?_⟩
  · rcases generatePassword_mem h hpw with hcs | ⟨s, hs, hcs⟩
    · exact h1 c hc hcs
    · exact h2 c hc s hs hcs
  · exact ⟨h1 _ (by rw [he]; decide), h1 _ (by rw [he]; decide), h1 _ (by rw [he]; decide),
      h1 _ (by rw [he]; decide)⟩

theorem exclude_filters_witness :
    (sampleOpts.exclude ≠ [] ∧ sampleOpts.noAmbiguous = false) ∧
      ((∀ c ∈ sampleOpts.exclude,
        c ∉ buildCharset sampleOpts ∧ (∀ s ∈ mustIncludes sampleOpts, c ∉ s) ∧
          ∀ (src : Source) (tr tr1 : Trace) (pw : List Char) (err : Option Err),
            generatePassword src sampleOpts.length (buildCharset sampleOpts)
              (mustIncludes sampleOpts) tr = some ((pw, err), tr1) → c ∉ pw) ∧
        (sampleOpts.exclude = "0Ol1".toList → sampleOpts.noAmbiguous = false →
          '0' ∉ buildCharset sampleOpts ∧ 'O' ∉ buildCharset sampleOpts ∧
            'l' ∉ buildCharset sampleOpts ∧ '1' ∉ buildCharset sampleOpts)) :=
  ⟨by decide, exclude_filters sampleOpts⟩

/-- C6: `generatePassword` on an empty charset returns the empty string and
the error `charset vazio`, for every length, every `must` and every source,
with no call of the sampler; and with the four class flags false
`buildCharset` is empty, so generation returns that error and no password. -/
theorem empty_charset_error :
    (∀ (src : Source) (length : Int) (must : List (List Char)) (tr : Trace),
      generatePassword src length [] must tr = some (([], some Err.charsetVazio), tr)) ∧
    (∀ o : opts, o.useLower = false → o.useUpper = false → o.useDigits = false →
      o.useSymbols = false →
        buildCharset o = [] ∧
          ∀ (src : Source) (tr : Trace),
            generatePassword src o.length (buildCharset o) (mustIncludes o) tr =
              some (([], some Err.charsetVazio), tr)) := by
  have h0 : ∀ (src : Source) (length : Int) (must : List (List Char)) (tr : Trace),
      generatePassword src length [] must tr = some (([], some Err.charsetVazio), tr) := by
    intro src length must tr
    simp [generatePassword, byteLen]
  refine ⟨h0, fun o hl hu hd hs => ?_⟩
  have hb : buildCharset o = [] := by
    apply List.eq_nil_iff_forall_not_mem.mpr
    intro c hc
    have := (mem_buildCharset.mp hc).1
    simp [enabledConcat, hl, hu, hd, hs] at this
  exact ⟨hb, fun src tr => by rw [hb]; exact h0 src o.length _ tr⟩

theorem empty_charset_error_witness :
    buildCharset noClassOpts = [] ∧
      generatePassword modSource noClassOpts.length (buildCharset noClassOpts)
        (mustIncludes noClassOpts) [] = some (([], some Err.charsetVazio), []) :=
  ⟨(empty_charset_error.2 noClassOpts rfl rfl rfl rfl).1,
    (empty_charset_error.2 noClassOpts rfl rfl rfl rfl).2 modSource []⟩

/-- C7: whenever `generatePassword` returns, the calls of the sampler it made
are appended to the trace as the sampler answered them, and if one of them
failed then the string returned is empty and the error returned is the error
of that call; an error never comes with a non-empty string; and on ASCII
sets the function does return, whatever the source does. -/
theorem generatePassword_error_propagation :
    (∀ (src : Source) (length : Int) (charset : List Char) (must : List (List Char))
      (tr tr1 : Trace) (pw : List Char) (err : Option Err),
      generatePassword src length charset must tr = some ((pw, err), tr1) →
        ∃ new, tr1 = tr ++ new ∧ (Faithful src tr → Faithful src tr1) ∧
          (∀ c ∈ new, ∀ e, c.err = some e → pw = [] ∧ err = some e) ∧
          (∀ e, err = some e → pw = [])) ∧
    (∀ (src : Source) (length : Int) (charset : List Char) (must : List (List Char))
      (tr : Trace), isAscii charset → (∀ s ∈ must, isAscii s) →
        ∃ pw err tr1, generatePassword src length charset must tr = some ((pw, err), tr1)) := by
  constructor
  · intro src length charset must tr tr1 pw err h
    obtain ⟨⟨new, hnew, hfail, hfaith⟩, hempty, -⟩ := generatePassword_spec h
    refine ⟨new, hnew, hfaith, fun c hc e he => ?_, hempty⟩
    have := hfail c hc e he
    exact ⟨hempty e this, this⟩
  · intro src length charset must tr hca hm
    obtain ⟨⟨⟨pw, err⟩, tr1⟩, h⟩ := generatePassword_returns src length tr hca hm
    exact ⟨pw, err, tr1, h⟩

theorem generatePassword_error_propagation_witness :
    generatePassword (failFrom 4 7) 3 lower [lower] [] =
        some (([], some (Err.entropy 7)), failingTrace) ∧
      ∃ new, failingTrace = [] ++ new ∧
        (Faithful (failFrom 4 7) [] → Faithful (failFrom 4 7) failingTrace) ∧
        (∀ c ∈ new, ∀ e, c.err = some e →
          ([] : List Char) = [] ∧ some (Err.entropy 7) = some e) ∧
        (∀ e, some (Err.entropy 7) = some e → ([] : List Char) = []) :=
  ⟨by decide,
    generatePassword_error_propagation.1 (failFrom 4 7) 3 lower [lower] [] failingTrace []
      (some (Err.entropy 7)) (by decide)⟩

/-- C8: for every slice of runes and every source whose draws all succeed,
`shuffleRunes` returns no error and leaves a permutation of its input, of the
same length. -/
theorem shuffleRunes_perm (src : Source) (hw : Working src) (runes : List Char)
    (tr : Trace) :
    ∃ p tr1, shuffleRunes src runes tr = some ((p, none), tr1) ∧ p.Perm runes ∧
      p.length = runes.length := by
  obtain ⟨p, err, tr1, h1, h2, -, h4⟩ := shuffleRunes_spec src runes tr
  have := h4 hw
  subst this
  exact ⟨p, tr1, h1, h2, h2.length_eq⟩

theorem shuffleRunes_perm_witness :
    Working modSource ∧
      ∃ p tr1, shuffleRunes modSource "abcd".toList [] = some ((p, none), tr1) ∧
        p.Perm "abcd".toList ∧ p.length = "abcd".toList.length :=
  ⟨working_modSource, shuffleRunes_perm modSource working_modSource "abcd".toList []⟩

/-- C10: `cryptoRandInt(n)` returns the error `n inválido` for every `n ≤ 0`,
whatever the source is (the source is not consulted); for `n > 0` an error it
returns is the error of the source at that call; so with a working source it
fails exactly when `n ≤ 0`. -/
theorem cryptoRandInt_fails_iff :
    (∀ (src : Source) (n : Int) (tr : Trace), n ≤ 0 →
      (cryptoRandInt src n tr).1 = (0, some Err.nInvalido) ∧
        ∀ src1 : Source, cryptoRandInt src1 n tr = cryptoRandInt src n tr) ∧
    (∀ (src : Source) (n : Int) (tr : Trace) (e : Err), 0 < n →
      (cryptoRandInt src n tr).1.2 = some e →
        ∃ c, src tr.length n.toNat = Except.error c ∧ e = Err.entropy c) ∧
    (∀ (src : Source), Working src → ∀ (n : Int) (tr : Trace),
      ((cryptoRandInt src n tr).1.2 ≠ none ↔ n ≤ 0)) := by
  refine ⟨fun src n tr hn => ⟨by simp [cryptoRandInt, hn], fun src1 => by
    simp [cryptoRandInt, hn]⟩, fun src n tr e hn he => ?_, fun src hw n tr => ?_⟩
  · rw [cryptoRandInt_eq] at he
    rcases callOf_err src tr.length n e he with ⟨h, -⟩ | ⟨-, h⟩
    · omega
    · exact h
  · rw [cryptoRandInt_eq]
    constructor
    · intro h
      by_contra hn
      exact h (callOf_working hw tr.length (by omega))
    · intro hn
      simp [callOf, hn]

theorem cryptoRandInt_fails_iff_witness :
    ((cryptoRandInt modSource (-3) []).1 = (0, some Err.nInvalido) ∧
      ∀ src1 : Source, cryptoRandInt src1 (-3) [] = cryptoRandInt modSource (-3) []) ∧
    ((cryptoRandInt modSource 5 []).1.2 ≠ none ↔ (5 : Int) ≤ 0) :=
  ⟨cryptoRandInt_fails_iff.1 modSource (-3) [] (by decide),
    cryptoRandInt_fails_iff.2.2 modSource working_modSource 5 []⟩

/-! ## The Fisher-Yates shuffle -/

theorem swapAt_eq {l : List Char} {i j : Nat} (hi : i < l.length) (hj : j < l.length) :
    swapAt l i j = (l.set i l[j]).set j l[i] := by
  simp [swapAt, List.getElem?_eq_getElem hi, List.getElem?_eq_getElem hj]

theorem swapRunes_eq_swapAt {l : List Char} {i j : Nat} (hi : i < l.length)
    (hj : j < l.length) : swapRunes l i j = some (swapAt l i j) := by
  rw [swapRunes_eq hi hj, swapAt_eq hi hj]

theorem swapAt_length (l : List Char) (i j : Nat) : (swapAt l i j).length = l.length := by
  unfold swapAt
  split <;> simp

theorem swapAt_perm (l : List Char) (i j : Nat) : (swapAt l i j).Perm l := by
  by_cases hi : i < l.length
  · by_cases hj : j < l.length
    · rw [swapAt_eq hi hj]; exact swap_perm l i j hi hj
    · simp [swapAt, List.getElem?_eq_none (Nat.le_of_not_lt hj)]
  · simp [swapAt, List.getElem?_eq_none (Nat.le_of_not_lt hi)]

theorem swapAt_append {pre : List Char} (suf : List Char) {i j : Nat} (hi : i < pre.length)
    (hj : j < pre.length) : swapAt (pre ++ suf) i j = swapAt pre i j ++ suf := by
  have hi2 : i < (pre ++ suf).length := by simp; omega
  have hj2 : j < (pre ++ suf).length := by simp; omega
  rw [swapAt_eq hi hj, swapAt_eq hi2 hj2]
  rw [List.getElem_append_left hi, List.getElem_append_left hj]
  rw [List.set_append_left _ _ hi, List.set_append_left _ _ (by simpa using hj)]

theorem swapAt_last {l : List Char} {i j : Nat} (hl : l.length = i + 1) (hj : j < l.length) :
    swapAt l i j = (swapAt l i j).take i ++ [l[j]] := by
  have hi : i < l.length := by omega
  have hlen := swapAt_length l i j
  have hi2 : i < (swapAt l i j).length := by omega
  have hget : (swapAt l i j)[i] = l[j] := by
    simp only [swapAt_eq hi hj]
    by_cases hij : j = i
    · subst hij; simp
    · rw [List.getElem_set_ne hij]; simp
  conv_lhs => rw [← List.take_append_drop i (swapAt l i j)]
  congr 1
  rw [List.drop_eq_getElem_cons hi2, hget, List.drop_of_length_le (by omega)]

theorem validDraws_succ {i : Nat} {js : List Nat} (h : validDraws (i + 1) js = true) :
    ∃ j js1, js = j :: js1 ∧ j ≤ i + 1 ∧ validDraws i js1 = true := by
  cases js with
  | nil => simp [validDraws] at h
  | cons j js1 =>
    simp [validDraws] at h
    exact ⟨j, js1, rfl, h.1, h.2⟩

theorem validDraws_zero {js : List Nat} (h : validDraws 0 js = true) : js = [] := by
  simpa [validDraws] using h

theorem fisherYates_length (i : Nat) (js : List Nat) (l : List Char) :
    (fisherYates i js l).length = l.length := by
  induction i generalizing js l with
  | zero => simp [fisherYates]
  | succ i ih =>
    cases js with
    | nil => simp [fisherYates]
    | cons j js => simp [fisherYates, ih, swapAt_length]

theorem fisherYates_perm (i : Nat) (js : List Nat) (l : List Char) :
    (fisherYates i js l).Perm l := by
  induction i generalizing js l with
  | zero => simp [fisherYates]
  | succ i ih =>
    cases js with
    | nil => simp [fisherYates]
    | cons j js =>
      simp only [fisherYates]
      exact (ih js _).trans (swapAt_perm l _ _)

theorem fisherYates_append (i : Nat) (js : List Nat) (pre suf : List Char)
    (hv : validDraws i js = true) (hi : i < pre.length) :
    fisherYates i js (pre ++ suf) = fisherYates i js pre ++ suf := by
  induction i generalizing js pre with
  | zero => rw [validDraws_zero hv]; simp [fisherYates]
  | succ i ih =>
    obtain ⟨j, js1, rfl, hj, hv1⟩ := validDraws_succ hv
    simp only [fisherYates]
    rw [swapAt_append suf hi (by omega)]
    exact ih js1 _ hv1 (by rw [swapAt_length]; omega)

/-- One step of the reference shuffle on a list of length `i + 2`: the element
drawn goes to the last position and the rest is shuffled. -/
theorem fisherYates_step {i j : Nat} {js : List Nat} {l : List Char}
    (hl : l.length = i + 2) (hj : j ≤ i + 1) (hv : validDraws i js = true) :
    fisherYates (i + 1) (j :: js) l =
      fisherYates i js ((swapAt l (i + 1) j).take (i + 1)) ++ [l[j]] := by
  simp only [fisherYates]
  conv_lhs => rw [swapAt_last (i := i + 1) hl (by omega)]
  exact fisherYates_append i js _ _ hv (by simp [swapAt_length]; omega)

theorem take_swapAt_perm {i j : Nat} {l : List Char} (hl : l.length = i + 2)
    (hj : j ≤ i + 1) : ((swapAt l (i + 1) j).take (i + 1) ++ [l[j]]).Perm l := by
  rw [← swapAt_last (i := i + 1) hl (by omega)]
  exact swapAt_perm l _ _

theorem fisherYates_injective (i : Nat) (l : List Char) (js js1 : List Nat)
    (hi : i = l.length - 1) (hnd : l.Nodup) (hv : validDraws i js = true)
    (hv1 : validDraws i js1 = true) (h : fisherYates i js l = fisherYates i js1 l) :
    js = js1 := by
  induction i generalizing l js js1 with
  | zero => rw [validDraws_zero hv, validDraws_zero hv1]
  | succ i ih =>
    have hl : l.length = i + 2 := by omega
    obtain ⟨j, t, rfl, hj, hvt⟩ := validDraws_succ hv
    obtain ⟨k, u, rfl, hk, hvu⟩ := validDraws_succ hv1
    rw [fisherYates_step hl hj hvt, fisherYates_step hl hk hvu] at h
    obtain ⟨h1, h2⟩ := List.append_inj' h rfl
    have hjk : j = k := by
      have h3 : l[j] = l[k] := List.singleton_inj.mp h2
      exact hnd.getElem_inj_iff.mp h3
    subst hjk
    have hnd1 : ((swapAt l (i + 1) j).take (i + 1)).Nodup := by
      have := (take_swapAt_perm hl hj).nodup_iff.mpr hnd
      exact (List.nodup_append.mp this).1
    have := ih _ t u (by simp [swapAt_length]; omega) hnd1 hvt hvu h1
    rw [this]

theorem perm_short {l p : List Char} (hl : l.length ≤ 1) (h : p.Perm l) : p = l := by
  match l, hl, h with
  | [], _, h => exact h.eq_nil
  | [a], _, h => exact List.perm_singleton.mp h

theorem fisherYates_surjective (i : Nat) (l p : List Char) (hi : i = l.length - 1)
    (h : p.Perm l) : ∃ js, validDraws i js = true ∧ fisherYates i js l = p := by
  induction i generalizing l p with
  | zero => exact ⟨[], rfl, by simp [fisherYates, perm_short (by omega) h]⟩
  | succ i ih =>
    have hl : l.length = i + 2 := by omega
    have hp : p ≠ [] := by
      intro hp
      have := h.length_eq
      simp [hp] at this
      omega
    have hx : p.getLast hp ∈ l := h.mem_iff.mp (List.getLast_mem hp)
    obtain ⟨j, hj, hjx⟩ := List.getElem_of_mem hx
    have hperm : ((swapAt l (i + 1) j).take (i + 1)).Perm p.dropLast := by
      have h1 := (take_swapAt_perm hl (j := j) (by omega)).trans h.symm
      rw [← List.dropLast_append_getLast hp, hjx] at h1
      exact (List.perm_append_right_iff _).mp h1
    obtain ⟨js, hv, hjs⟩ := ih _ _ (by simp [swapAt_length]; omega) hperm.symm
    refine ⟨j :: js, by simp [validDraws, hv]; omega, ?_⟩
    rw [fisherYates_step hl (by omega) hv, hjs, hjx]
    exact List.dropLast_append_getLast hp

theorem callOf_ok (src : Source) (t : Nat) (n : Int) (hn : 0 < n) (j : Nat)
    (h : ∀ m, m = n.toNat → ∃ hlt : j < m, src t m = Except.ok ⟨j, hlt⟩) :
    callOf src t n = ⟨n, j, none⟩ := by
  obtain ⟨hlt, hs⟩ := h n.toNat rfl
  unfold callOf
  rw [if_neg (by omega), hs]

theorem drawSource_cons (j : Nat) (js : List Nat) (t n : Nat) :
    drawSource (j :: js) (t + 1) n = drawSource js t n := by
  simp [drawSource]

/-- On a source that answers with the draw vector `js`, the loop of
`shuffleRunes` computes the reference shuffle and makes the calls
`shuffleCalls`. -/
theorem shuffleLoop_eq_fisherYates (src : Source) (i : Nat) (js : List Nat)
    (runes : List Char) (tr : Trace) (hv : validDraws i js = true)
    (hi : i ≤ runes.length - 1)
    (hsrc : ∀ t n, src (tr.length + t) n = drawSource js t n) :
    shuffleLoop src i runes tr =
      some ((fisherYates i js runes, none), tr ++ shuffleCalls i js) := by
  induction i generalizing js runes tr with
  | zero => rw [validDraws_zero hv]; simp [shuffleLoop, fisherYates, shuffleCalls]
  | succ i ih =>
    obtain ⟨j, js1, rfl, hj, hv1⟩ := validDraws_succ hv
    have hcall : callOf src tr.length (((i + 1 : Nat) : Int) + 1) =
        ⟨((i + 1 : Nat) : Int) + 1, j, none⟩ := by
      apply callOf_ok src tr.length _ (by omega) j
      intro m hm
      have hm2 : m = i + 2 := by omega
      subst hm2
      have hlt : j < i + 2 := by omega
      refine ⟨hlt, ?_⟩
      have h0 : src tr.length (i + 2) = drawSource (j :: js1) 0 (i + 2) := hsrc 0 (i + 2)
      rw [h0]
      simp [drawSource, hlt]
    have hi1 : i + 1 < runes.length := by omega
    simp only [shuffleLoop, cryptoRandInt_eq, hcall,
      swapRunes_eq_swapAt hi1 (show j < runes.length by omega), fisherYates, shuffleCalls]
    rw [ih js1 _ _ hv1 (by rw [swapAt_length]; omega)]
    · simp
    · intro t n
      rw [← drawSource_cons j js1 t n, ← hsrc (t + 1) n]
      congr 1
      simp; omega

/-- C9: `shuffleRunes` is the Fisher-Yates shuffle: on a draw vector
`(j_{n-1}, ..., j_1)` with `0 ≤ j_i ≤ i` it asks for one draw with bound
`i + 1` at each index `i` from `len - 1` down to 1 and exchanges positions `i`
and `j_i`, as the reference shuffle does; and for an input of pairwise distinct
runes the map from these draw vectors to the result is a bijection onto the
permutations of the input (each vector gives a permutation, and each
permutation comes from exactly one vector). -/
theorem shuffleRunes_bijection (runes : List Char) (hnd : runes.Nodup) :
    (∀ js, validDraws (runes.length - 1) js = true →
      shuffleRunes (drawSource js) runes [] =
          some ((fisherYates (runes.length - 1) js runes, none),
            shuffleCalls (runes.length - 1) js) ∧
        (fisherYates (runes.length - 1) js runes).Perm runes) ∧
    (∀ p : List Char, p.Perm runes →
      ∃! js, validDraws (runes.length - 1) js = true ∧
        shuffleRunes (drawSource js) runes [] =
          some ((p, none), shuffleCalls (runes.length - 1) js)) := by
  have hrun : ∀ js, validDraws (runes.length - 1) js = true →
      shuffleRunes (drawSource js) runes [] =
        some ((fisherYates (runes.length - 1) js runes, none),
          shuffleCalls (runes.length - 1) js) := by
    intro js hv
    have := shuffleLoop_eq_fisherYates (drawSource js) (runes.length - 1) js runes [] hv
      (Nat.le_refl _) (fun t n => by simp)
    simpa [shuffleRunes] using this
  refine ⟨fun js hv => ⟨hrun js hv, fisherYates_perm _ _ _⟩, fun p hp => ?_⟩
  obtain ⟨js, hv, hjs⟩ := fisherYates_surjective (runes.length - 1) runes p rfl hp
  refine ⟨js, ⟨hv, by rw [hrun js hv, hjs]⟩, fun js1 ⟨hv1, h1⟩ => ?_⟩
  rw [hrun js1 hv1] at h1
  have heq : fisherYates (runes.length - 1) js1 runes = p := by
    simpa using congrArg (fun r => r.map (fun x => x.1.1)) h1
  exact fisherYates_injective (runes.length - 1) runes js1 js rfl hnd hv1 hv
    (heq.trans hjs.symm)

theorem shuffleRunes_bijection_witness :
    "abc".toList.Nodup ∧
      ((∀ js, validDraws ("abc".toList.length - 1) js = true →
        shuffleRunes (drawSource js) "abc".toList [] =
            some ((fisherYates ("abc".toList.length - 1) js "abc".toList, none),
              shuffleCalls ("abc".toList.length - 1) js) ∧
          (fisherYates ("abc".toList.length - 1) js "abc".toList).Perm "abc".toList) ∧
      (∀ p : List Char, p.Perm "abc".toList →
        ∃! js, validDraws ("abc".toList.length - 1) js = true ∧
          shuffleRunes (drawSource js) "abc".toList [] =
            some ((p, none), shuffleCalls ("abc".toList.length - 1) js))) :=
  ⟨by decide, shuffleRunes_bijection "abc".toList (by decide)⟩

/-! ## The alphabet and the mandatory subsets against their reference -/

theorem uniqueRunesLoop_of_nodup (s seen out : List Char) (hnd : (out ++ s).Nodup)
    (hseen : ∀ c ∈ seen, c ∈ out) : uniqueRunesLoop s seen out = out ++ s := by
  induction s generalizing seen out with
  | nil => simp [uniqueRunesLoop]
  | cons r s ih =>
    have hr : r ∉ out := by
      intro h
      have := (List.nodup_append.mp hnd).2.2
      exact this h (List.mem_cons_self r s) 
    have hrs : r ∉ seen := fun h => hr (hseen r h)
    simp only [uniqueRunesLoop, hrs, if_false]
    rw [ih (r :: seen) (out ++ [r]) (by simpa using hnd)]
    · simp
    · intro c hc
      rcases List.mem_cons.mp hc with rfl | hc
      · simp
      · exact List.mem_append_left _ (hseen c hc)

theorem uniqueRunes_of_nodup {s : List Char} (hnd : s.Nodup) : uniqueRunes s = s := by
  have := uniqueRunesLoop_of_nodup s [] [] (by simpa using hnd) (by simp)
  simpa [uniqueRunes] using this

theorem filterRef_eq (o : opts) (s : List Char) :
    filterRef o s =
      (if o.exclude ≠ [] then fun cs => removeRunes cs o.exclude else id)
        ((if o.noAmbiguous then fun cs => removeRunes cs ambiguous else id) s) := by
  unfold filterRef
  cases o.noAmbiguous <;> by_cases hx : o.exclude = [] <;> simp [hx, removeRunes_eq]

theorem filterRef_nodup (o : opts) {s : List Char} (hnd : s.Nodup) : (filterRef o s).Nodup := by
  unfold filterRef
  cases o.noAmbiguous <;> by_cases hx : o.exclude = [] <;>
    simp [hx, hnd, List.Nodup.filter]

theorem mem_filterRef {o : opts} {s : List Char} {c : Char} :
    c ∈ filterRef o s ↔ c ∈ s ∧ (o.noAmbiguous = true → c ∉ ambiguous) ∧ c ∉ o.exclude := by
  unfold filterRef
  cases ha : o.noAmbiguous <;> by_cases hx : o.exclude = [] <;>
    simp [hx, List.mem_filter, and_assoc]
  tauto

theorem filterRef_append (o : opts) (s t : List Char) :
    filterRef o (s ++ t) = filterRef o s ++ filterRef o t := by
  unfold filterRef
  cases o.noAmbiguous <;> by_cases hx : o.exclude = [] <;> simp [hx]

theorem enabledConcat_nodup (o : opts) : (enabledConcat o).Nodup := by
  unfold enabledConcat
  cases o.useLower <;> cases o.useUpper <;> cases o.useDigits <;> cases o.useSymbols <;>
    decide

theorem enabledSets_nodup {o : opts} {cls : List Char} (h : cls ∈ enabledSets o) :
    cls.Nodup := by
  have hsub : cls = lower ∨ cls = upper ∨ cls = digits ∨ cls = symbols := by
    unfold enabledSets at h
    cases o.useLower <;> cases o.useUpper <;> cases o.useDigits <;> cases o.useSymbols <;>
      simp at h <;> tauto
  rcases hsub with rfl | rfl | rfl | rfl <;> decide

theorem enabledSets_ascii {o : opts} {cls : List Char} (h : cls ∈ enabledSets o) :
    isAscii cls := by
  have hsub : cls = lower ∨ cls = upper ∨ cls = digits ∨ cls = symbols := by
    unfold enabledSets at h
    cases o.useLower <;> cases o.useUpper <;> cases o.useDigits <;> cases o.useSymbols <;>
      simp at h <;> tauto
  rcases hsub with rfl | rfl | rfl | rfl <;> decide

theorem enabledSets_length (o : opts) : (enabledSets o).length ≤ 4 := by
  unfold enabledSets
  cases o.useLower <;> cases o.useUpper <;> cases o.useDigits <;> cases o.useSymbols <;>
    decide

theorem enabledConcat_eq_flatten (o : opts) : enabledConcat o = (enabledSets o).flatten := by
  unfold enabledConcat enabledSets
  cases o.useLower <;> cases o.useUpper <;> cases o.useDigits <;> cases o.useSymbols <;>
    simp

theorem buildCharset_eq_ref (o : opts) : buildCharset o = filterRef o (enabledConcat o) := by
  rw [buildCharset_eq, uniqueRunes_of_nodup (enabledConcat_nodup o), filterRef_eq]

theorem mustIncludes_eq_ref (o : opts) :
    mustIncludes o = ((enabledSets o).map (filterRef o)).filter (fun s => decide (s ≠ [])) := by
  rw [mustIncludes_eq, dropEmpty_eq]
  have hmap : (if o.exclude ≠ [] then List.map (fun s => removeRunes s o.exclude) else id)
      ((if o.noAmbiguous then List.map (fun s => removeRunes s ambiguous) else id)
        (enabledSets o)) = (enabledSets o).map (filterRef o) := by
    rw [funext (filterRef_eq o)]
    cases ha : o.noAmbiguous <;> by_cases hx : o.exclude = [] <;> simp [hx]
  rw [hmap, List.nil_append]
  have hid : ∀ s ∈ ((enabledSets o).map (filterRef o)).filter (fun s => decide (s ≠ [])),
      uniqueRunes s = s := by
    intro s hs
    obtain ⟨cls, hcls, rfl⟩ := List.mem_map.mp (List.mem_filter.mp hs).1
    exact uniqueRunes_of_nodup (filterRef_nodup o (enabledSets_nodup hcls))
  conv_rhs => rw [← List.map_id (((enabledSets o).map (filterRef o)).filter _)]
  exact List.map_congr_left hid

theorem filterRef_nil (o : opts) : filterRef o [] = [] := by
  unfold filterRef
  cases o.noAmbiguous <;> by_cases hx : o.exclude = [] <;> simp [hx]

theorem filterRef_flatten (o : opts) (L : List (List Char)) :
    filterRef o L.flatten = (L.map (filterRef o)).flatten := by
  induction L with
  | nil => simp [filterRef_nil]
  | cons s L ih => simp [filterRef_append, ih]

theorem mustIncludes_flatten (o : opts) : (mustIncludes o).flatten = buildCharset o := by
  rw [mustIncludes_eq_ref, buildCharset_eq_ref, enabledConcat_eq_flatten, filterRef_flatten,
    List.flatten_filter_ne_nil]

theorem mustIncludes_ne_nil {o : opts} {s : List Char} (hs : s ∈ mustIncludes o) : s ≠ [] := by
  obtain ⟨-, -, h, -⟩ := mem_mustIncludes hs
  exact h

theorem mustIncludes_ascii {o : opts} {s : List Char} (hs : s ∈ mustIncludes o) :
    isAscii s := by
  obtain ⟨cls, hcls, -, hmem⟩ := mem_mustIncludes hs
  intro c hc
  exact enabledSets_ascii hcls c ((hmem c).mp hc).1

theorem buildCharset_ascii (o : opts) : isAscii (buildCharset o) := by
  intro c hc
  obtain ⟨cls, hcls, hccls⟩ := mem_enabledConcat.mp (mem_buildCharset.mp hc).1
  exact enabledSets_ascii hcls c hccls

theorem mustIncludes_length (o : opts) : (mustIncludes o).length ≤ 4 := by
  rw [mustIncludes_eq_ref]
  calc (((enabledSets o).map (filterRef o)).filter (fun s => decide (s ≠ []))).length
      ≤ ((enabledSets o).map (filterRef o)).length := List.length_filter_le _ _
    _ = (enabledSets o).length := List.length_map _ _
    _ ≤ 4 := enabledSets_length o

/-- C13: for every configuration `o`, `buildCharset(o)` has no character twice
and is the reference alphabet: the enabled classes concatenated in the order
lower, upper, digit, symbol, without the ambiguous characters when the flag is
set and without the characters of `o.exclude` when it is not empty, the
characters kept staying in their order. -/
theorem buildCharset_reference (o : opts) :
    (buildCharset o).Nodup ∧ buildCharset o = alphabetRef o := by
  have h : buildCharset o = alphabetRef o := buildCharset_eq_ref o
  refine ⟨?_, h⟩
  rw [buildCharset_eq_ref]
  exact filterRef_nodup o (enabledConcat_nodup o)

/-- C14: for every configuration `o`, `mustIncludes(o)` is the reference list:
the enabled classes in the order lower, upper, digit, symbol, each filtered on
its own by the ambiguous set (flag set) and by `o.exclude`, the empty ones
dropped; so every subset of the list is non-empty and has no character twice,
and the list has at most one entry for each enabled class. -/
theorem mustIncludes_reference (o : opts) :
    mustIncludes o = mandatoryRef o ∧
      (∀ s ∈ mustIncludes o, s ≠ [] ∧ s.Nodup) ∧
      (mustIncludes o).length ≤
        (if o.useLower then 1 else 0) + (if o.useUpper then 1 else 0) +
          (if o.useDigits then 1 else 0) + (if o.useSymbols then 1 else 0) := by
  have h : mustIncludes o = mandatoryRef o := mustIncludes_eq_ref o
  refine ⟨h, fun s hs => ⟨mustIncludes_ne_nil hs, ?_⟩, ?_⟩
  · rw [mustIncludes_eq_ref] at hs
    obtain ⟨cls, hcls, rfl⟩ := List.mem_map.mp (List.mem_filter.mp hs).1
    exact filterRef_nodup o (enabledSets_nodup hcls)
  · rw [mustIncludes_eq_ref]
    have h1 : (((enabledSets o).map (filterRef o)).filter (fun s => decide (s ≠ []))).length
        ≤ (enabledSets o).length :=
      (List.length_filter_le _ _).trans (List.length_map _ _).le
    refine h1.trans ?_
    unfold enabledSets
    cases o.useLower <;> cases o.useUpper <;> cases o.useDigits <;> cases o.useSymbols <;>
      decide

/-- C18: for every configuration `o`, the subsets of `mustIncludes(o)`
concatenated in order are `buildCharset(o)`; so `buildCharset(o)` is empty
exactly when `mustIncludes(o)` is the empty list. -/
theorem mustIncludes_concat (o : opts) :
    (mustIncludes o).flatten = buildCharset o ∧
      (buildCharset o = [] ↔ mustIncludes o = []) := by
  refine ⟨mustIncludes_flatten o, ?_⟩
  rw [← mustIncludes_flatten o, List.flatten_eq_nil_iff]
  constructor
  · intro h
    apply List.eq_nil_iff_forall_not_mem.mpr
    intro s hs
    exact mustIncludes_ne_nil hs (h s hs)
  · intro h s hs
    rw [h] at hs
    simp at hs

/-- C19: for every configuration `o`, `buildCharset(o)` and every subset of
`mustIncludes(o)` hold ASCII characters only, so their length in bytes is
their number of characters, and the index that `pickRune` uses on them is in
range for every answer of the source: neither `pickRune` on one of these sets
nor `generatePassword` on them panics. -/
theorem pickRune_index_in_range (o : opts) :
    (isAscii (buildCharset o) ∧ byteLen (buildCharset o) = (buildCharset o).length) ∧
      (∀ s ∈ mustIncludes o, isAscii s ∧ byteLen s = s.length) ∧
      (∀ (src : Source) (tr : Trace) (s : List Char), s = buildCharset o ∨ s ∈ mustIncludes o →
        ∃ res, pickRune src s tr = some res) ∧
      (∀ (src : Source) (length : Int) (tr : Trace),
        ∃ res, generatePassword src length (buildCharset o) (mustIncludes o) tr = some res) := by
  refine ⟨⟨buildCharset_ascii o, byteLen_ascii (buildCharset_ascii o)⟩,
    fun s hs => ⟨mustIncludes_ascii hs, byteLen_ascii (mustIncludes_ascii hs)⟩,
    fun src tr s hs => ?_, fun src length tr => ?_⟩
  · rcases hs with rfl | hs
    · exact pickRune_returns src (buildCharset_ascii o) tr
    · exact pickRune_returns src (mustIncludes_ascii hs) tr
  · exact generatePassword_returns src length tr (buildCharset_ascii o)
      (fun s hs => mustIncludes_ascii hs)

/-- C20: `mustIncludes(o)` has at most 4 subsets for every configuration,
`parseFlags` gives a length of at least 4, and so for every configuration with
`o.length ≥ 4`, as the driver produces them, a password generated with
success has exactly `o.length` characters. -/
theorem length_override_never_fires :
    (∀ o : opts, (mustIncludes o).length ≤ 4) ∧
    (∀ parsed : opts, 4 ≤ (parseFlags parsed).length) ∧
    (∀ (o : opts) (src : Source) (tr tr1 : Trace) (pw : List Char), 4 ≤ o.length →
      generatePassword src o.length (buildCharset o) (mustIncludes o) tr =
        some ((pw, none), tr1) → (pw.length : Int) = o.length) := by
  refine ⟨mustIncludes_length, fun parsed => ?_, fun o src tr tr1 pw hl h => ?_⟩
  · unfold parseFlags
    by_cases h1 : parsed.length < 4 <;> by_cases h2 : parsed.count < 1 <;> simp [h1, h2]
    all_goals omega
  · obtain ⟨-, -, -, -, -, -, hlen⟩ := (generatePassword_spec h).2.2 rfl
    have := mustIncludes_length o
    omega

theorem length_override_never_fires_witness :
    (4 : Int) ≤ sampleOpts.length ∧
      generatePassword modSource sampleOpts.length (buildCharset sampleOpts)
        (mustIncludes sampleOpts) [] = some (("3dca".toList, none), sampleOptsTrace) ∧
      (("3dca".toList.length : Nat) : Int) = sampleOpts.length :=
  ⟨by decide, by decide,
    length_override_never_fires.2.2 sampleOpts modSource [] sampleOptsTrace "3dca".toList
      (by decide) (by decide)⟩

/-! ## The arguments of the sampler -/

theorem posExt_refl (src : Source) (tr : Trace) : PosExt src tr tr none :=
  ⟨[], by simp, by simp, by simp⟩

theorem posExt_call (src : Source) (tr : Trace) {n : Int} (hn : 1 ≤ n) :
    PosExt src tr (tr ++ [callOf src tr.length n]) (callOf src tr.length n).err := by
  refine ⟨[callOf src tr.length n], rfl, ?_, fun e he => ?_⟩
  · intro c hc
    rw [List.mem_singleton.mp hc, callOf_n]
    exact hn
  · rcases callOf_err src tr.length n e he with ⟨h, -⟩ | ⟨-, c, hc, rfl⟩
    · omega
    · refine ⟨[], callOf src tr.length n, c, rfl, he, ?_, rfl⟩
      rw [callOf_n]
      exact hc

theorem posExt_trans {src : Source} {tr tr1 tr2 : Trace} {err : Option Err}
    (h1 : PosExt src tr tr1 none) (h2 : PosExt src tr1 tr2 err) : PosExt src tr tr2 err := by
  obtain ⟨n1, rfl, c1, -⟩ := h1
  obtain ⟨n2, rfl, c2, e2⟩ := h2
  refine ⟨n1 ++ n2, by simp, ?_, fun e he => ?_⟩
  · intro c hc
    rcases List.mem_append.mp hc with hc | hc
    · exact c1 c hc
    · exact c2 c hc
  · obtain ⟨init, c, code, rfl, hce, hsrc, rfl⟩ := e2 e he
    refine ⟨n1 ++ init, c, code, by simp, hce, ?_, rfl⟩
    rw [List.length_append] at hsrc
    rw [List.length_append, ← Nat.add_assoc]
    exact hsrc

theorem pickRune_pos {src : Source} {frm : List Char} (hne : frm ≠ []) {tr tr1 : Trace}
    {r : Char} {err : Option Err} (h : pickRune src frm tr = some ((r, err), tr1)) :
    PosExt src tr tr1 err := by
  have hpos : (1 : Int) ≤ byteLen frm := by
    have : byteLen frm ≠ 0 := fun h => hne (byteLen_eq_zero.mp h)
    omega
  rw [pickRune_eq] at h
  have hc := posExt_call src tr hpos
  cases he : (callOf src tr.length (byteLen frm)).err with
  | some e =>
    rw [he] at h hc
    simp at h
    obtain ⟨⟨-, rfl⟩, rfl⟩ := h
    exact hc
  | none =>
    rw [he] at h hc
    simp only at h
    cases hr : frm[(callOf src tr.length (byteLen frm)).val]? with
    | none => rw [hr] at h; simp at h
    | some r0 =>
      rw [hr] at h
      simp at h
      obtain ⟨⟨-, rfl⟩, rfl⟩ := h
      exact hc

theorem shuffleLoop_pos {src : Source} {i : Nat} {runes p : List Char} {tr tr1 : Trace}
    {err : Option Err} (h : shuffleLoop src i runes tr = some ((p, err), tr1)) :
    PosExt src tr tr1 err := by
  induction i generalizing runes tr with
  | zero =>
    simp [shuffleLoop] at h
    obtain ⟨⟨-, rfl⟩, rfl⟩ := h
    exact posExt_refl _ _
  | succ i ih =>
    have hc := posExt_call src tr (n := ((i + 1 : Nat) : Int) + 1) (by omega)
    simp only [shuffleLoop, cryptoRandInt_eq] at h
    cases he : (callOf src tr.length (((i + 1 : Nat) : Int) + 1)).err with
    | some e =>
      rw [he] at h hc
      simp at h
      obtain ⟨⟨-, rfl⟩, rfl⟩ := h
      exact hc
    | none =>
      rw [he] at h hc
      simp only at h
      cases hs : swapRunes runes (i + 1)
          (callOf src tr.length (((i + 1 : Nat) : Int) + 1)).val with
      | none => rw [hs] at h; simp at h
      | some runes1 =>
        rw [hs] at h
        exact posExt_trans hc (ih h)

theorem mustLoop_pos {src : Source} {must : List (List Char)} (hm : ∀ s ∈ must, s ≠ [])
    {pw pw1 : List Char} {tr tr1 : Trace} {err : Option Err}
    (h : mustLoop src must pw tr = some ((pw1, err), tr1)) : PosExt src tr tr1 err := by
  induction must generalizing pw tr with
  | nil =>
    simp [mustLoop] at h
    obtain ⟨⟨-, rfl⟩, rfl⟩ := h
    exact posExt_refl _ _
  | cons set rest ih =>
    simp only [mustLoop] at h
    cases hp : pickRune src set tr with
    | none => rw [hp] at h; simp at h
    | some res =>
      obtain ⟨⟨r, e⟩, tr2⟩ := res
      have ht := pickRune_pos (hm set (List.mem_cons_self _ _)) hp
      rw [hp] at h
      cases e with
      | some e =>
        simp at h
        obtain ⟨⟨-, rfl⟩, rfl⟩ := h
        exact ht
      | none =>
        simp only at h
        exact posExt_trans ht (ih (fun s hs => hm s (List.mem_cons_of_mem _ hs)) h)

theorem fillLoop_pos {src : Source} {charset : List Char} (hne : charset ≠ []) {length : Int}
    {fuel : Nat} {pw pw1 : List Char} {tr tr1 : Trace} {err : Option Err}
    (h : fillLoop src charset length fuel pw tr = some ((pw1, err), tr1)) :
    PosExt src tr tr1 err := by
  induction fuel generalizing pw tr with
  | zero =>
    simp [fillLoop] at h
    obtain ⟨⟨-, rfl⟩, rfl⟩ := h
    exact posExt_refl _ _
  | succ fuel ih =>
    simp only [fillLoop] at h
    by_cases hg : (pw.length : Int) < length
    · rw [if_pos hg] at h
      cases hp : pickRune src charset tr with
      | none => rw [hp] at h; simp at h
      | some res =>
        obtain ⟨⟨r, e⟩, tr2⟩ := res
        have ht := pickRune_pos hne hp
        rw [hp] at h
        cases e with
        | some e =>
          simp at h
          obtain ⟨⟨-, rfl⟩, rfl⟩ := h
          exact ht
        | none =>
          simp only at h
          exact posExt_trans ht (ih h)
    · rw [if_neg hg] at h
      simp at h
      obtain ⟨⟨-, rfl⟩, rfl⟩ := h
      exact posExt_refl _ _

theorem generatePassword_pos {src : Source} {length : Int} {charset : List Char}
    {must : List (List Char)} (hne : charset ≠ []) (hm : ∀ s ∈ must, s ≠ [])
    {tr tr1 : Trace} {pw : List Char} {err : Option Err}
    (h : generatePassword src length charset must tr = some ((pw, err), tr1)) :
    PosExt src tr tr1 err := by
  unfold generatePassword at h
  have hz : byteLen charset ≠ 0 := fun hc => hne (byteLen_eq_zero.mp hc)
  rw [if_neg hz] at h
  simp only at h
  cases h0 : mustLoop src must [] tr with
  | none => rw [h0] at h; simp at h
  | some res =>
    obtain ⟨⟨pw0, e0⟩, tr0⟩ := res
    have m1 := mustLoop_pos hm h0
    rw [h0] at h
    cases e0 with
    | some e =>
      simp at h
      obtain ⟨⟨-, rfl⟩, rfl⟩ := h
      exact m1
    | none =>
      simp only at h
      cases hf : fillLoop src charset
          (if length < (must.length : Int) then (must.length : Int) else length)
          ((if length < (must.length : Int) then (must.length : Int) else length) -
            (pw0.length : Int)).toNat pw0 tr0 with
      | none => rw [hf] at h; simp at h
      | some res =>
        obtain ⟨⟨pw1, e1⟩, tr2⟩ := res
        have f1 := fillLoop_pos hne hf
        rw [hf] at h
        cases e1 with
        | some e =>
          simp at h
          obtain ⟨⟨-, rfl⟩, rfl⟩ := h
          exact posExt_trans m1 f1
        | none =>
          simp only at h
          cases hs : shuffleRunes src pw1 tr2 with
          | none => rw [hs] at h; simp at h
          | some res =>
            obtain ⟨⟨p, e2⟩, tr3⟩ := res
            have s1 := shuffleLoop_pos hs
            rw [hs] at h
            cases e2 with
            | some e =>
              simp at h
              obtain ⟨⟨-, rfl⟩, rfl⟩ := h
              exact posExt_trans m1 (posExt_trans f1 s1)
            | none =>
              simp at h
              obtain ⟨⟨-, rfl⟩, rfl⟩ := h
              exact posExt_trans m1 (posExt_trans f1 s1)

/-- C17: for every configuration `o` with a non-empty `buildCharset(o)`, every
length and every source, `generatePassword(length, buildCharset(o),
mustIncludes(o))` returns, and every call of `cryptoRandInt` it made (mandatory
picks, fill picks, steps of the shuffle) has an argument `n ≥ 1`; an error it
returns is never `n inválido`: it is the error that the entropy source gave to
the last call made, at the position of that call and for the bound `n ≥ 1` that
the call asked for; so with a source whose draws all succeed generation does
not fail. -/
theorem invalid_range_unreachable (o : opts) (hne : buildCharset o ≠ []) (length : Int)
    (src : Source) (tr : Trace) :
    ∃ pw err tr1 new,
      generatePassword src length (buildCharset o) (mustIncludes o) tr = some ((pw, err), tr1) ∧
      tr1 = tr ++ new ∧ (∀ c ∈ new, 1 ≤ c.n) ∧ err ≠ some Err.nInvalido ∧
      (∀ e, err = some e → ∃ init c code, new = init ++ [c] ∧ 1 ≤ c.n ∧ c.err = some e ∧
        src (tr.length + init.length) c.n.toNat = Except.error code ∧ e = Err.entropy code) ∧
      (Working src → err = none) := by
  obtain ⟨⟨⟨pw, err⟩, tr1⟩, h⟩ := generatePassword_returns src length tr (buildCharset_ascii o)
    (fun s hs => mustIncludes_ascii hs)
  obtain ⟨new, hnew, hpos, herr⟩ := generatePassword_pos hne (fun s hs => mustIncludes_ne_nil hs) h
  have herr2 : ∀ e, err = some e → ∃ init c code, new = init ++ [c] ∧ 1 ≤ c.n ∧
      c.err = some e ∧ src (tr.length + init.length) c.n.toNat = Except.error code ∧
      e = Err.entropy code := by
    intro e he
    obtain ⟨init, c, code, hsplit, hce, hsrc, hcode⟩ := herr e he
    refine ⟨init, c, code, hsplit, hpos c ?_, hce, hsrc, hcode⟩
    rw [hsplit]
    simp
  refine ⟨pw, err, tr1, new, h, hnew, hpos, fun he => ?_, herr2, fun hw => ?_⟩
  · obtain ⟨_, _, _, _, _, _, _, hcode⟩ := herr2 _ he
    cases hcode
  · cases herr0 : err with
    | none => rfl
    | some e =>
      obtain ⟨init, c, code, -, hc1, -, hsrc, -⟩ := herr2 e herr0
      obtain ⟨v, hv⟩ := hw (tr.length + init.length) c.n.toNat (by omega)
      rw [hv] at hsrc
      cases hsrc

theorem invalid_range_unreachable_witness :
    buildCharset sampleOpts ≠ [] ∧
      ∃ pw err tr1 new,
        generatePassword (failFrom 2 7) (-5) (buildCharset sampleOpts) (mustIncludes sampleOpts)
          [] = some ((pw, err), tr1) ∧
        tr1 = [] ++ new ∧ (∀ c ∈ new, 1 ≤ c.n) ∧ err ≠ some Err.nInvalido ∧
        (∀ e, err = some e → ∃ init c code, new = init ++ [c] ∧ 1 ≤ c.n ∧ c.err = some e ∧
          failFrom 2 7 (([] : Trace).length + init.length) c.n.toNat = Except.error code ∧
          e = Err.entropy code) ∧
        (Working (failFrom 2 7) → err = none) :=
  ⟨by decide, invalid_range_unreachable sampleOpts (by decide) (-5) (failFrom 2 7) []⟩

/-! ## The sampler and single picks -/

/-- C11: for every `n > 0`, `cryptoRandInt(n)` asks the source once, with the
bound `n`, and when the source answers `v` it returns `v` itself with no
error: the value returned is below `n`, the record added to the trace is that
one call, and two sources that give the same answer to that request give the
same result. -/
theorem cryptoRandInt_no_reduction (src : Source) (n : Int) (tr : Trace) (hn : 0 < n) :
    (∀ v : Fin n.toNat, src tr.length n.toNat = Except.ok v →
      cryptoRandInt src n tr = ((v.val, none), tr ++ [⟨n, v.val, none⟩]) ∧
        ((v.val : Nat) : Int) < n) ∧
    (∀ src1 : Source, src1 tr.length n.toNat = src tr.length n.toNat →
      cryptoRandInt src1 n tr = cryptoRandInt src n tr) ∧
    (n.toNat : Int) = n := by
  refine ⟨fun v hv => ?_, fun src1 h1 => ?_, by omega⟩
  · have hlt := v.isLt
    unfold cryptoRandInt
    rw [if_neg (by omega), hv]
    exact ⟨rfl, by omega⟩
  · unfold cryptoRandInt
    rw [if_neg (by omega), if_neg (by omega), h1]

theorem cryptoRandInt_no_reduction_witness :
    (0 : Int) < 7 ∧ cryptoRandInt modSource 7 sampleTrace =
      ((5, none), sampleTrace ++ [⟨7, 5, none⟩]) :=
  ⟨by decide,
    ((cryptoRandInt_no_reduction modSource 7 sampleTrace (by decide)).1 ⟨5, by decide⟩
      rfl).1⟩

/-- What holds of `pickRune`: on the empty set it returns an error and makes no
draw from the source; on a non-empty ASCII set it asks for one index
with bound `len(set)` and, when the draw succeeds, returns the character at
that index, a member of the set. -/
theorem pickRune_ascii (src : Source) (tr : Trace) :
    (∃ r tr1, pickRune src [] tr = some ((r, some Err.nInvalido), tr1)) ∧
    (∀ frm : List Char, frm ≠ [] → isAscii frm →
      ∀ v : Fin frm.length, src tr.length frm.length = Except.ok v →
        pickRune src frm tr = some ((frm.get v, none), tr ++ [⟨frm.length, v.val, none⟩]) ∧
          frm.get v ∈ frm) := by
  constructor
  · exact ⟨Char.ofNat 0, tr ++ [⟨0, 0, some Err.nInvalido⟩],
      by simp [pickRune, cryptoRandInt, byteLen]⟩
  · intro frm hne ha v hv
    have hb := byteLen_ascii ha
    have hcall : callOf src tr.length (byteLen frm) = ⟨frm.length, v.val, none⟩ := by
      rw [hb]
      apply callOf_ok src tr.length _ (by
        have : frm.length ≠ 0 := fun h => hne (List.length_eq_zero.mp h)
        omega) v.val
      intro m hm
      have hm2 : m = frm.length := by omega
      subst hm2
      exact ⟨v.isLt, hv⟩
    rw [pickRune_eq, hcall]
    simp only [List.getElem?_eq_getElem v.isLt]
    exact ⟨rfl, List.get_mem _ _ _⟩

/-- C12: `pickRune` is to return a member of every non-empty set when the draw
succeeds, and does not: on the non-empty set `é` (two bytes, one character)
the bound of the draw is 2, the draw succeeds with answer 1, and the index is
out of range, so `pickRune` panics and returns no character. -/
theorem pickRune_multibyte_panics :
    "é".toList ≠ [] ∧ byteLen "é".toList = 2 ∧ "é".toList.length = 1 ∧
      (cryptoRandInt oneSource (byteLen "é".toList) []).1 = (1, none) ∧
      pickRune oneSource "é".toList [] = none := by
  decide

/-! ## The two scenarios -/

theorem fourOpts_mustIncludes (amb : Bool) (count : Int) (copy : Bool) :
    mustIncludes (fourOpts amb count copy) =
      [filterRef (fourOpts amb count copy) lower, filterRef (fourOpts amb count copy) upper,
        filterRef (fourOpts amb count copy) digits,
        filterRef (fourOpts amb count copy) symbols] := by
  cases amb <;> rfl

theorem classes_disjoint :
    (∀ x ∈ lower, x ∉ upper ∧ x ∉ digits ∧ x ∉ symbols) ∧
    (∀ x ∈ upper, x ∉ lower ∧ x ∉ digits ∧ x ∉ symbols) ∧
    (∀ x ∈ digits, x ∉ lower ∧ x ∉ upper ∧ x ∉ symbols) ∧
    (∀ x ∈ symbols, x ∉ lower ∧ x ∉ upper ∧ x ∉ digits) := by
  decide

/-- C15: for the configuration with length 4, the four classes enabled and an
empty exclusion string, with either value of the ambiguous flag, a password
generated with success has exactly 4 characters, exactly one of them in each
of the classes lower, upper, digits and symbols, and is a permutation of the
four mandatory picks alone: the fill loop adds no character. -/
theorem four_classes_scenario (amb : Bool) (count : Int) (copy : Bool) (src : Source)
    (tr tr1 : Trace) (pw : List Char)
    (h : generatePassword src (fourOpts amb count copy).length
      (buildCharset (fourOpts amb count copy)) (mustIncludes (fourOpts amb count copy)) tr =
        some ((pw, none), tr1)) :
    pw.length = 4 ∧
      pw.countP (fun c => decide (c ∈ lower)) = 1 ∧
      pw.countP (fun c => decide (c ∈ upper)) = 1 ∧
      pw.countP (fun c => decide (c ∈ digits)) = 1 ∧
      pw.countP (fun c => decide (c ∈ symbols)) = 1 ∧
      ∃ picks, pw.Perm picks ∧
        List.Forall₂ (fun r s => r ∈ s) picks (mustIncludes (fourOpts amb count copy)) := by
  obtain ⟨-, picks, extra, hperm, hforall, -, hlen⟩ := (generatePassword_spec h).2.2 rfl
  have hm4 : (mustIncludes (fourOpts amb count copy)).length = 4 := by
    rw [fourOpts_mustIncludes]; rfl
  have hl4 : (fourOpts amb count copy).length = 4 := rfl
  have hpw : pw.length = 4 := by
    rw [hm4, hl4] at hlen
    omega
  have hpicks : picks.length = 4 := hforall.length_eq.trans hm4
  have hextra : extra = [] := by
    have := hperm.length_eq
    rw [List.length_append] at this
    exact List.length_eq_zero.mp (by omega)
  subst hextra
  rw [List.append_nil] at hperm
  refine ⟨hpw, ?_, ?_, ?_, ?_, picks, hperm, hforall⟩
  all_goals
    rw [hperm.countP_eq]
    rw [fourOpts_mustIncludes] at hforall
    cases hforall with
    | cons ha t1 =>
      cases t1 with
      | cons hb t2 =>
        cases t2 with
        | cons hc t3 =>
          cases t3 with
          | cons hd t4 =>
            cases t4
            have ha1 := (mem_filterRef.mp ha).1
            have hb1 := (mem_filterRef.mp hb).1
            have hc1 := (mem_filterRef.mp hc).1
            have hd1 := (mem_filterRef.mp hd).1
            have ha2 := classes_disjoint.1 _ ha1
            have hb2 := classes_disjoint.2.1 _ hb1
            have hc2 := classes_disjoint.2.2.1 _ hc1
            have hd2 := classes_disjoint.2.2.2 _ hd1
            simp [List.countP_cons, ha1, hb1, hc1, hd1, ha2, hb2, hc2, hd2]

set_option maxRecDepth 8000 in
theorem four_classes_scenario_witness :
    generatePassword modSource (fourOpts true 1 false).length
        (buildCharset (fourOpts true 1 false)) (mustIncludes (fourOpts true 1 false)) [] =
        some (("B$4a".toList, none), fourTrace) ∧
      "B$4a".toList.length = 4 ∧
      "B$4a".toList.countP (fun c => decide (c ∈ lower)) = 1 ∧
      "B$4a".toList.countP (fun c => decide (c ∈ upper)) = 1 ∧
      "B$4a".toList.countP (fun c => decide (c ∈ digits)) = 1 ∧
      "B$4a".toList.countP (fun c => decide (c ∈ symbols)) = 1 ∧
      ∃ picks, "B$4a".toList.Perm picks ∧
        List.Forall₂ (fun r s => r ∈ s) picks (mustIncludes (fourOpts true 1 false)) :=
  ⟨by decide,
    four_classes_scenario true 1 false modSource [] fourTrace "B$4a".toList (by decide)⟩

/-- C16: for the configuration with length 8, only lowercase enabled, the
ambiguous filter off and an empty exclusion string, `buildCharset` is the 26
letters `a` to `z`, `mustIncludes` is the list of that one set, and a password
generated with success has exactly 8 characters, all lowercase letters. -/
theorem lowercase_scenario (count : Int) (copy : Bool) :
    lower = (List.range 26).map (fun i => Char.ofNat (97 + i)) ∧
      buildCharset (lowerOpts count copy) = lower ∧
      mustIncludes (lowerOpts count copy) = [lower] ∧
      ∀ (src : Source) (tr tr1 : Trace) (pw : List Char),
        generatePassword src (lowerOpts count copy).length (buildCharset (lowerOpts count copy))
          (mustIncludes (lowerOpts count copy)) tr = some ((pw, none), tr1) →
        pw.length = 8 ∧ ∀ c ∈ pw, c ∈ lower := by
  have hb : buildCharset (lowerOpts count copy) = lower := rfl
  have hm : mustIncludes (lowerOpts count copy) = [lower] := rfl
  refine ⟨by decide, hb, hm, fun src tr tr1 pw h => ?_⟩
  have hmem : ∀ c ∈ pw, c ∈ lower := by
    intro c hc
    rcases generatePassword_mem h hc with h1 | ⟨s, hs, h1⟩
    · rw [hb] at h1; exact h1
    · rw [hm] at hs
      rw [List.mem_singleton.mp hs] at h1
      exact h1
  obtain ⟨-, -, -, -, -, -, hlen⟩ := (generatePassword_spec h).2.2 rfl
  rw [hm] at hlen
  have hl8 : (lowerOpts count copy).length = 8 := rfl
  rw [hl8] at hlen
  simp at hlen
  exact ⟨by omega, hmem⟩

theorem lowercase_scenario_witness :
    generatePassword modSource (lowerOpts 1 false).length (buildCharset (lowerOpts 1 false))
        (mustIncludes (lowerOpts 1 false)) [] = some (("gdfhbeca".toList, none), lowerTrace) ∧
      "gdfhbeca".toList.length = 8 ∧ ∀ c ∈ "gdfhbeca".toList, c ∈ lower :=
  ⟨by decide,
    (lowercase_scenario 1 false).2.2.2 modSource [] lowerTrace "gdfhbeca".toList (by decide)⟩

end Passgen
